import Mathlib

/- Shallow embedding of the CapitalGainsCalculatorIE repository
   (src/tax_calculations.py, src/improved_calculator.py, src/ticker_utils.py).
   Python floats are modelled as exact rationals; `None`/NaN inputs as `Option`;
   raised exceptions as `Except`. -/

/-- src/tax_calculations.py, `apply_cgt_with_loss_carry_forward`:
annual exemption on positive gains, then carried-forward losses against the
positive remainder, 33 percent on the nonnegative final remainder, and a
negative post-exemption figure feeds the loss accumulator.
Returns (taxable_gains, cgt_liability, carry_forward_used, remaining_losses). -/
def apply_cgt_with_loss_carry_forward (stock_realized accumulated_losses cgt_exemption : ℚ) :
    ℚ × ℚ × ℚ × ℚ :=
  let after_exemption :=
    if 0 < stock_realized then stock_realized - min stock_realized cgt_exemption
    else stock_realized
  let carry_forward_used :=
    if 0 < after_exemption ∧ 0 < accumulated_losses then min after_exemption accumulated_losses
    else 0
  let accumulated_losses1 :=
    if 0 < after_exemption ∧ 0 < accumulated_losses then accumulated_losses - carry_forward_used
    else accumulated_losses
  let after_exemption1 := after_exemption - carry_forward_used
  let taxable_gains := max 0 after_exemption1
  let cgt_liability := taxable_gains * (33 / 100)
  let accumulated_losses2 :=
    if after_exemption1 < 0 then accumulated_losses1 + |after_exemption1| else accumulated_losses1
  (taxable_gains, cgt_liability, carry_forward_used, accumulated_losses2)

/-- src/tax_calculations.py, `calculate_etf_exit_tax`: 41 percent on the sum of
realized gains, dividends and deemed-disposal gains; no exemption, no relief. -/
def calculate_etf_exit_tax (etf_realized etf_dividends etf_deemed : ℚ) : ℚ × ℚ :=
  let total_taxable := etf_realized + etf_dividends + etf_deemed
  (total_taxable, total_taxable * (41 / 100))

/-- Result dictionary of `calculate_dividend_income_tax`. -/
structure DividendTaxResult where
  gross_dividend_income : ℚ
  irish_dividends : ℚ
  foreign_dividends : ℚ
  irish_dwt_credit : ℚ
  foreign_withholding_credit : ℚ
  total_credits : ℚ
  income_tax_due : ℚ
  net_tax_due : ℚ
  refund_due : ℚ
  margin_rate : ℚ
deriving DecidableEq

/-- src/tax_calculations.py, `calculate_dividend_income_tax`: `None` when the
dividend income is not positive, otherwise the full breakdown dictionary. -/
def calculate_dividend_income_tax (dividend_income margin_rate irish_dividends
    foreign_dividends : ℚ) : Option DividendTaxResult :=
  if dividend_income ≤ 0 then none
  else
    let irish_dwt_credit := irish_dividends * (25 / 100)
    let foreign_withholding_credit := foreign_dividends * (15 / 100)
    let total_credits := irish_dwt_credit + foreign_withholding_credit
    let income_tax_due := dividend_income * (margin_rate / 100)
    some
      { gross_dividend_income := dividend_income
        irish_dividends := irish_dividends
        foreign_dividends := foreign_dividends
        irish_dwt_credit := irish_dwt_credit
        foreign_withholding_credit := foreign_withholding_credit
        total_credits := total_credits
        income_tax_due := income_tax_due
        net_tax_due := max 0 (income_tax_due - total_credits)
        refund_due := max 0 (total_credits - income_tax_due)
        margin_rate := margin_rate }

/-- src/improved_calculator.py lines 582-626, the per-year body of
`calculate_dividend_taxes` (an inline copy of the module function, over the
year's stock dividend totals only). -/
def calculate_dividend_taxes_year (margin_rate stock_dividends_irish
    stock_dividends_foreign : ℚ) : Option DividendTaxResult :=
  let total_irish_dividends := stock_dividends_irish
  let total_foreign_dividends := stock_dividends_foreign
  let total_dividends := total_irish_dividends + total_foreign_dividends
  if 0 < total_dividends then
    let irish_dwt_credit := total_irish_dividends * (25 / 100)
    let foreign_withholding_credit := total_foreign_dividends * (15 / 100)
    let gross_dividend_income := total_dividends
    let income_tax_due := gross_dividend_income * (margin_rate / 100)
    let total_credits := irish_dwt_credit + foreign_withholding_credit
    some
      { gross_dividend_income := gross_dividend_income
        irish_dividends := total_irish_dividends
        foreign_dividends := total_foreign_dividends
        irish_dwt_credit := irish_dwt_credit
        foreign_withholding_credit := foreign_withholding_credit
        total_credits := total_credits
        income_tax_due := income_tax_due
        net_tax_due := max 0 (income_tax_due - total_credits)
        refund_due := max 0 (total_credits - income_tax_due)
        margin_rate := margin_rate }
  else none

/-- src/tax_calculations.py, `get_exemption_applied`. -/
def get_exemption_applied (realized_gains exemption_amount : ℚ) : ℚ :=
  if 0 < realized_gains then min realized_gains exemption_amount else 0

/-- The stock CGT algorithm as the specification words it (section 4.3): the
exemption is applied only to positive gains and consumed up to min(gain,
exemption); the carried-forward loss is consumed against the post-exemption
positive remainder, capped at that remainder; the taxable gain is the
nonnegative remainder taxed at 33 percent; a negative post-exemption,
pre-carry-forward figure adds its magnitude to the accumulator. -/
def cgt_per_spec (gain acc exemption : ℚ) : ℚ × ℚ × ℚ × ℚ :=
  let afterEx := if 0 < gain then gain - min gain exemption else gain
  let used := min (max afterEx 0) acc
  let taxable := max 0 (afterEx - used)
  (taxable, taxable * (33 / 100), used,
    if afterEx < 0 then acc + (-afterEx) else acc - used)

/-- Claim C2: `apply_cgt_with_loss_carry_forward` implements the stock CGT
algorithm as specified — exemption only on positive gains up to min(gain,
exemption), carried-forward losses consumed against the post-exemption
positive remainder capped at that remainder, the nonnegative remainder taxed
at 33 percent, and a negative post-exemption figure added to the accumulator —
and the worked two-year example (loss 500 then gain 2000) gives taxable 230,
liability 75.90 and a zeroed accumulator. -/
theorem c2_apply_cgt_with_loss_carry_forward (g acc ex : ℚ) (hacc : 0 ≤ acc) :
    apply_cgt_with_loss_carry_forward g acc ex = cgt_per_spec g acc ex ∧
    apply_cgt_with_loss_carry_forward (-500) 0 1270 = (0, 0, 0, 500) ∧
    apply_cgt_with_loss_carry_forward 2000 500 1270 = (230, 759 / 10, 500, 0) := by
  refine ⟨?_, by norm_num [apply_cgt_with_loss_carry_forward, min_def, max_def, abs],
    by norm_num [apply_cgt_with_loss_carry_forward, min_def, max_def, abs]⟩
  simp only [apply_cgt_with_loss_carry_forward, cgt_per_spec]
  set A := if 0 < g then g - min g ex else g with hA
  have hU : (if 0 < A ∧ 0 < acc then min A acc else 0) = min (max A 0) acc := by
    by_cases h1 : 0 < A
    · by_cases h2 : 0 < acc
      · rw [if_pos ⟨h1, h2⟩, max_eq_left h1.le]
      · have hz : acc = 0 := le_antisymm (not_lt.mp h2) hacc
        rw [if_neg (by simp [h2]), hz, min_eq_right (le_max_right A 0)]
    · rw [if_neg (by simp [h1]), max_eq_right (not_lt.mp h1), min_eq_left hacc]
  rw [hU]
  refine Prod.ext rfl (Prod.ext rfl (Prod.ext rfl ?_))
  dsimp only
  by_cases h1 : 0 < A
  · have hUle : min (max A 0) acc ≤ A := by
      rw [max_eq_left h1.le]; exact min_le_left _ _
    rw [if_neg (not_lt.mpr (sub_nonneg.mpr hUle)), if_neg (not_lt.mpr h1.le)]
    by_cases h2 : 0 < acc
    · rw [if_pos ⟨h1, h2⟩]
    · have hz : acc = 0 := le_antisymm (not_lt.mp h2) hacc
      rw [if_neg (by simp [h2]), hz, min_eq_right (le_max_right A 0)]
      ring
  · have hU0 : min (max A 0) acc = 0 := by
      rw [max_eq_right (not_lt.mp h1), min_eq_left hacc]
    simp only [hU0, sub_zero, h1, false_and, if_false]
    by_cases h3 : A < 0
    · rw [if_pos h3, if_pos h3, abs_of_neg h3]
    · rw [if_neg h3, if_neg h3]

/-- Witness for C2 at the year-two example input. -/
theorem c2_apply_cgt_with_loss_carry_forward_witness :
    (0 : ℚ) ≤ 500 ∧ apply_cgt_with_loss_carry_forward 2000 500 1270 = cgt_per_spec 2000 500 1270 :=
  ⟨by norm_num, (c2_apply_cgt_with_loss_carry_forward 2000 500 1270 (by norm_num)).1⟩

/-- Claim C4: `calculate_etf_exit_tax` returns the sum of realized gains,
dividends and deemed-disposal gains as the taxable total, taxed at exactly
41 percent with no exemption or loss relief, and a fund gain of 100 with all
other figures zero yields liability exactly 41. -/
theorem c4_calculate_etf_exit_tax :
    (∀ r d dd : ℚ, calculate_etf_exit_tax r d dd = (r + d + dd, (r + d + dd) * (41 / 100))) ∧
    calculate_etf_exit_tax 100 0 0 = (100, 41) := by
  refine ⟨fun r d dd => rfl, ?_⟩
  norm_num [calculate_etf_exit_tax]

/-- Claim C5: for every year with positive stock dividend income, the
per-year dividend computation of `calculate_dividend_taxes` gives a 25 percent
credit on domestic (Irish) dividends and a 15 percent credit on foreign ones,
taxes the gross income at the caller-supplied marginal rate, owes
max(0, tax - credits), reports a surplus as max(0, credits - tax) instead of a
negative liability, agrees with `calculate_dividend_income_tax`, and the
1000-domestic-at-40-percent example gives tax 400, credit 250, net due 150,
refund 0. -/
theorem c5_dividend_income_tax (irish foreign m : ℚ) (h : 0 < irish + foreign) :
    calculate_dividend_taxes_year m irish foreign =
      some
        { gross_dividend_income := irish + foreign
          irish_dividends := irish
          foreign_dividends := foreign
          irish_dwt_credit := irish * (25 / 100)
          foreign_withholding_credit := foreign * (15 / 100)
          total_credits := irish * (25 / 100) + foreign * (15 / 100)
          income_tax_due := (irish + foreign) * (m / 100)
          net_tax_due :=
            max 0 ((irish + foreign) * (m / 100) - (irish * (25 / 100) + foreign * (15 / 100)))
          refund_due :=
            max 0 ((irish * (25 / 100) + foreign * (15 / 100)) - (irish + foreign) * (m / 100))
          margin_rate := m } ∧
    calculate_dividend_taxes_year m irish foreign =
      calculate_dividend_income_tax (irish + foreign) m irish foreign ∧
    calculate_dividend_taxes_year 40 1000 0 =
      some
        { gross_dividend_income := 1000
          irish_dividends := 1000
          foreign_dividends := 0
          irish_dwt_credit := 250
          foreign_withholding_credit := 0
          total_credits := 250
          income_tax_due := 400
          net_tax_due := 150
          refund_due := 0
          margin_rate := 40 } := by
  refine ⟨?_, ?_, ?_⟩
  · simp only [calculate_dividend_taxes_year]
    rw [if_pos h]
  · simp only [calculate_dividend_taxes_year, calculate_dividend_income_tax]
    rw [if_pos h, if_neg (not_le.mpr h)]
  · norm_num [calculate_dividend_taxes_year, max_def]

/-- Witness for C5 at the worked example. -/
theorem c5_dividend_income_tax_witness :
    (0 : ℚ) < 1000 + 0 ∧
      calculate_dividend_taxes_year 40 1000 0 =
        calculate_dividend_income_tax (1000 + 0) 40 1000 0 :=
  ⟨by norm_num, (c5_dividend_income_tax 1000 0 40 (by norm_num)).2.1⟩


/-- Currency symbols removed by the first regex substitution in `parse_amount`. -/
def isCurrencySymbol (c : Char) : Bool :=
  c = '€' || c = '$' || c = '£' || c = '¥' || c = '₹'

/-- Helper for the euro-encoding substitution in `parse_amount`. For the
characters following an 'â', the greedy pattern consumes non-digits up to the
last '¬' reachable without crossing a digit; this returns the suffix after
that '¬' when the pattern matches. -/
def euroNoiseTail : List Char → Option (List Char)
  | [] => none
  | c :: rest =>
    if c.isDigit then none
    else if c = '¬' then some ((euroNoiseTail rest).getD rest)
    else euroNoiseTail rest

/-- The euro-encoding substitution of `parse_amount`: removal of every greedy
match of 'â', non-digits, '¬'. The fuel argument is always at least the list
length (each removed span is nonempty), so the fuel case only ends the
recursion on the empty list. -/
def removeEuroNoiseFuel : ℕ → List Char → List Char
  | 0, _ => []
  | _ + 1, [] => []
  | n + 1, c :: rest =>
    if c = 'â' then
      match euroNoiseTail rest with
      | some r => removeEuroNoiseFuel n r
      | none => c :: removeEuroNoiseFuel n rest
    else c :: removeEuroNoiseFuel n rest

def removeEuroNoise (cs : List Char) : List Char :=
  removeEuroNoiseFuel cs.length cs

/-- Hexadecimal digits of the `_x[0-9A-Fa-f]+_` pattern in `parse_amount`. -/
def isHexChar (c : Char) : Bool :=
  c.isDigit || (decide ('A' ≤ c) && decide (c ≤ 'F')) || (decide ('a' ≤ c) && decide (c ≤ 'f'))

/-- After at least one hexadecimal digit has been consumed: accept at the
closing underscore, keep consuming hexadecimal digits, fail otherwise. -/
def hexTail : List Char → Option (List Char)
  | [] => none
  | c :: rest =>
    if c = '_' then some rest
    else if isHexChar c then hexTail rest
    else none

/-- For the characters following the opening underscore: the pattern needs an
'x', one or more hexadecimal digits, then an underscore; returns the suffix
after the match. -/
def hexNoiseTail : List Char → Option (List Char)
  | a :: c :: rest => if a = 'x' && isHexChar c then hexTail rest else none
  | _ => none

/-- The hex-encoding substitution of `parse_amount`: removal of every match of
underscore, 'x', hexadecimal digits, underscore. Fuel as in
`removeEuroNoiseFuel`. -/
def removeHexNoiseFuel : ℕ → List Char → List Char
  | 0, _ => []
  | _ + 1, [] => []
  | n + 1, c :: rest =>
    if c = '_' then
      match hexNoiseTail rest with
      | some r => removeHexNoiseFuel n r
      | none => c :: removeHexNoiseFuel n rest
    else c :: removeHexNoiseFuel n rest

def removeHexNoise (cs : List Char) : List Char :=
  removeHexNoiseFuel cs.length cs

/-- Decimal value of a digit string read left to right. -/
def digitsVal (cs : List Char) : ℕ :=
  cs.foldl (fun acc c => 10 * acc + (c.toNat - 48)) 0

def pow10 : ℕ → ℕ
  | 0 => 1
  | n + 1 => 10 * pow10 n

/-- Value of a match of the numeric pattern (digits, optional point, digits)
starting at the given characters, as Python float() reads the matched token. -/
def parseLeadingNum (cs : List Char) : ℚ :=
  let intDigits := cs.takeWhile (fun c => c.isDigit)
  let rest := cs.dropWhile (fun c => c.isDigit)
  let fracDigits :=
    match rest with
    | '.' :: r => r.takeWhile (fun c => c.isDigit)
    | _ => []
  (digitsVal intDigits : ℚ) + (digitsVal fracDigits : ℚ) / (pow10 fracDigits.length : ℚ)

/-- First match of the numeric pattern (optional minus sign, digits, optional
point, digits) in the cleaned string — the `matches[0]` of `parse_amount`. -/
def findFirstNumber : List Char → Option ℚ
  | [] => none
  | c :: rest =>
    if c = '-' then
      match rest with
      | [] => none
      | d :: _ => if d.isDigit then some (-(parseLeadingNum rest)) else findFirstNumber rest
    else if c.isDigit then some (parseLeadingNum (c :: rest))
    else findFirstNumber rest

/-- src/improved_calculator.py, `parse_amount`: missing values parse to 0,
currency-symbol and encoding noise is stripped, the first numeric pattern is
read, and anything without one parses to 0. -/
def parse_amount (amount : Option String) : ℚ :=
  match amount with
  | none => 0
  | some s =>
    let s1 := s.toList.filter (fun c => !(isCurrencySymbol c))
    let s2 := removeEuroNoise s1
    let s3 := removeHexNoise s2
    match findFirstNumber s3 with
    | some q => q
    | none => 0

theorem euroNoiseTail_mem : ∀ cs r, euroNoiseTail cs = some r → ∀ x ∈ r, x ∈ cs := by
  intro cs
  induction cs with
  | nil => intro r h; simp [euroNoiseTail] at h
  | cons c rest ih =>
    intro r h x hx
    simp only [euroNoiseTail] at h
    by_cases hd : c.isDigit
    · simp [hd] at h
    · by_cases hb : c = '¬'
      · rw [if_neg (by simp [hd]), if_pos hb] at h
        cases heq : euroNoiseTail rest with
        | some r' =>
          simp [heq] at h
          subst h
          exact List.mem_cons_of_mem _ (ih r' heq x hx)
        | none =>
          simp [heq] at h
          subst h
          exact List.mem_cons_of_mem _ hx
      · rw [if_neg (by simp [hd]), if_neg hb] at h
        exact List.mem_cons_of_mem _ (ih r h x hx)

theorem removeEuroNoiseFuel_mem :
    ∀ n cs, ∀ x ∈ removeEuroNoiseFuel n cs, x ∈ cs := by
  intro n
  induction n with
  | zero => intro cs x hx; simp [removeEuroNoiseFuel] at hx
  | succ n ih =>
    intro cs x hx
    cases cs with
    | nil => simp [removeEuroNoiseFuel] at hx
    | cons c rest =>
      rw [removeEuroNoiseFuel] at hx
      by_cases hc : c = 'â'
      · rw [if_pos hc] at hx
        cases heq : euroNoiseTail rest with
        | some r =>
          rw [heq] at hx
          exact List.mem_cons_of_mem _ (euroNoiseTail_mem rest r heq x (ih r x hx))
        | none =>
          rw [heq] at hx
          rcases List.mem_cons.mp hx with h1 | h1
          · exact List.mem_cons.mpr (Or.inl h1)
          · exact List.mem_cons_of_mem _ (ih rest x h1)
      · rw [if_neg hc] at hx
        rcases List.mem_cons.mp hx with h1 | h1
        · exact List.mem_cons.mpr (Or.inl h1)
        · exact List.mem_cons_of_mem _ (ih rest x h1)

theorem hexTail_mem : ∀ cs r, hexTail cs = some r → ∀ x ∈ r, x ∈ cs := by
  intro cs
  induction cs with
  | nil => intro r h; simp [hexTail] at h
  | cons c rest ih =>
    intro r h x hx
    simp only [hexTail] at h
    by_cases hu : c = '_'
    · rw [if_pos hu] at h
      cases h
      exact List.mem_cons_of_mem _ hx
    · rw [if_neg hu] at h
      by_cases hx2 : isHexChar c
      · rw [if_pos hx2] at h
        exact List.mem_cons_of_mem _ (ih r h x hx)
      · simp [hx2] at h

theorem hexNoiseTail_mem : ∀ cs r, hexNoiseTail cs = some r → ∀ x ∈ r, x ∈ cs := by
  intro cs r h x hx
  cases cs with
  | nil => simp [hexNoiseTail] at h
  | cons a rest1 =>
    cases rest1 with
    | nil => simp [hexNoiseTail] at h
    | cons c rest =>
      by_cases hcond : (a = 'x' && isHexChar c) = true
      · rw [hexNoiseTail, if_pos hcond] at h
        exact List.mem_cons_of_mem _ (List.mem_cons_of_mem _ (hexTail_mem rest r h x hx))
      · rw [hexNoiseTail, if_neg hcond] at h
        cases h

theorem removeHexNoiseFuel_mem :
    ∀ n cs, ∀ x ∈ removeHexNoiseFuel n cs, x ∈ cs := by
  intro n
  induction n with
  | zero => intro cs x hx; simp [removeHexNoiseFuel] at hx
  | succ n ih =>
    intro cs x hx
    cases cs with
    | nil => simp [removeHexNoiseFuel] at hx
    | cons c rest =>
      rw [removeHexNoiseFuel] at hx
      by_cases hc : c = '_'
      · rw [if_pos hc] at hx
        cases heq : hexNoiseTail rest with
        | some r =>
          rw [heq] at hx
          exact List.mem_cons_of_mem _ (hexNoiseTail_mem rest r heq x (ih r x hx))
        | none =>
          rw [heq] at hx
          rcases List.mem_cons.mp hx with h1 | h1
          · exact List.mem_cons.mpr (Or.inl h1)
          · exact List.mem_cons_of_mem _ (ih rest x h1)
      · rw [if_neg hc] at hx
        rcases List.mem_cons.mp hx with h1 | h1
        · exact List.mem_cons.mpr (Or.inl h1)
        · exact List.mem_cons_of_mem _ (ih rest x h1)

theorem findFirstNumber_eq_none :
    ∀ cs : List Char, (∀ x ∈ cs, x.isDigit = false) → findFirstNumber cs = none := by
  intro cs
  induction cs with
  | nil => intro _; rfl
  | cons c rest ih =>
    intro hnd
    rw [findFirstNumber.eq_def]; dsimp only
    by_cases hc : c = '-'
    · rw [if_pos hc]
      cases rest with
      | nil => rfl
      | cons d rest' =>
        have hd : d.isDigit = false := hnd d (by simp)
        dsimp only
        rw [hd]
        simp only [Bool.false_eq_true, if_false]
        exact ih fun x hx => hnd x (List.mem_cons_of_mem _ hx)
    · rw [if_neg hc]
      have hcd : c.isDigit = false := hnd c (by simp)
      rw [hcd]
      simp only [Bool.false_eq_true, if_false]
      exact ih fun x hx => hnd x (List.mem_cons_of_mem _ hx)

/-- Claim C9: `parse_amount` is total and lenient — a missing (NaN) value
parses to 0, every digit-free string parses to 0 rather than failing, a string
whose only digits sit inside stripped encoding noise parses to 0, and currency
noise is stripped before reading the first numeric pattern. -/
theorem c9_parse_amount_total_lenient (s : String)
    (hnd : ∀ x ∈ s.toList, x.isDigit = false) :
    parse_amount none = 0 ∧
    parse_amount (some s) = 0 ∧
    parse_amount (some "abc -x_ €_x20_") = 0 ∧
    parse_amount (some "€1.50") = 3 / 2 := by
  refine ⟨rfl, ?_, by decide, ?_⟩
  · have h3 : ∀ x ∈ removeHexNoise (removeEuroNoise
        (s.toList.filter fun c => !(isCurrencySymbol c))), x.isDigit = false := by
      intro x hx
      rw [removeHexNoise] at hx
      replace hx := removeHexNoiseFuel_mem _ _ x hx
      rw [removeEuroNoise] at hx
      replace hx := removeEuroNoiseFuel_mem _ _ x hx
      exact hnd x (List.mem_of_mem_filter hx)
    simp only [parse_amount, findFirstNumber_eq_none _ h3]
  · have h1 : removeHexNoise (removeEuroNoise
        ("€1.50".toList.filter fun c => !(isCurrencySymbol c))) = ['1', '.', '5', '0'] := by
      decide
    have h2 : findFirstNumber ['1', '.', '5', '0'] =
        some (parseLeadingNum ['1', '.', '5', '0']) := by
      simp [findFirstNumber]
    simp only [parse_amount, h1, h2]
    simp [parseLeadingNum, digitsVal, pow10, List.takeWhile, List.dropWhile]
    norm_num

/-- Witness for C9 on a concrete digit-free string. -/
theorem c9_parse_amount_total_lenient_witness :
    parse_amount (some "no amount here €") = 0 :=
  (c9_parse_amount_total_lenient "no amount here €" (by decide)).2.1

/-- Errors raised by the calculator (ValueError messages in the source). -/
inductive CalcError where
  | invalidFxRate (currency : String)
  | tickerNotFound (ticker : String)
  | noValidFxRates
deriving DecidableEq

/-- src/improved_calculator.py, `convert_to_eur`: EUR amounts pass through;
USD amounts divide by a present positive FX rate; every other case raises. -/
def convert_to_eur (amount : ℚ) (currency : String) (fx_rate : Option ℚ) :
    Except CalcError ℚ :=
  if currency = "EUR" then .ok amount
  else if currency = "USD" then
    match fx_rate with
    | some r =>
        if 0 < r then .ok (amount / r) else .error (.invalidFxRate currency)
    | none => .error (.invalidFxRate currency)
  else .error (.invalidFxRate currency)

/-- Counterexample to claim C7 as stated: GBP is a non-settlement currency
with a present, positive FX rate, yet `convert_to_eur` raises instead of
converting. -/
theorem c7_counterexample_gbp :
    convert_to_eur 100 "GBP" (some 2) = .error (.invalidFxRate "GBP") ∧ (0 : ℚ) < 2 :=
  ⟨rfl, by norm_num⟩

/-- Claim C7 as amended: `convert_to_eur` returns the amount unchanged for the
settlement currency EUR; for USD it converts via the record's FX rate exactly
when the rate is present and positive and raises otherwise; for every other
currency it always raises, even when a positive rate is present — never an
implicit one-to-one fallback. -/
theorem c7_convert_to_eur (amount : ℚ) (currency : String) (fx : Option ℚ) :
    (currency = "EUR" → convert_to_eur amount currency fx = .ok amount) ∧
    (currency = "USD" → ∀ r, fx = some r → 0 < r →
      convert_to_eur amount currency fx = .ok (amount / r)) ∧
    (currency = "USD" → ∀ r, fx = some r → r ≤ 0 →
      convert_to_eur amount currency fx = .error (.invalidFxRate currency)) ∧
    (currency = "USD" → fx = none →
      convert_to_eur amount currency fx = .error (.invalidFxRate currency)) ∧
    (currency ≠ "EUR" → currency ≠ "USD" →
      convert_to_eur amount currency fx = .error (.invalidFxRate currency)) := by
  refine ⟨?_, ?_, ?_, ?_, ?_⟩
  · intro h; simp [convert_to_eur, h]
  · intro h r hr hpos
    subst hr
    simp [convert_to_eur, h, hpos]
  · intro h r hr hneg
    subst hr
    simp [convert_to_eur, h, not_lt.mpr hneg]
  · intro h hn
    subst hn
    simp [convert_to_eur, h]
  · intro h1 h2
    simp [convert_to_eur, h1, h2]

/-- Witness for C7 covering each branch at concrete inputs. -/
theorem c7_convert_to_eur_witness :
    convert_to_eur 5 "EUR" none = .ok 5 ∧
    convert_to_eur 10 "USD" (some 2) = .ok (10 / 2) ∧
    convert_to_eur 10 "USD" (some 0) = .error (.invalidFxRate "USD") ∧
    convert_to_eur 10 "USD" none = .error (.invalidFxRate "USD") ∧
    convert_to_eur 10 "CHF" (some 2) = .error (.invalidFxRate "CHF") :=
  ⟨(c7_convert_to_eur 5 "EUR" none).1 rfl,
    (c7_convert_to_eur 10 "USD" (some 2)).2.1 rfl 2 rfl (by norm_num),
    (c7_convert_to_eur 10 "USD" (some 0)).2.2.1 rfl 0 rfl le_rfl,
    (c7_convert_to_eur 10 "USD" none).2.2.2.1 rfl rfl,
    (c7_convert_to_eur 10 "CHF" (some 2)).2.2.2.2 (by decide) (by decide)⟩

/-- Python str.upper() (String.toUpper is opaque to reduction, so the map over
characters is spelled out). -/
def upper (s : String) : String := ⟨s.data.map Char.toUpper⟩

/-- Entry of the ticker cache (field set of src/ticker_utils.py). -/
structure TickerInfo where
  type : String
  currency : String
  active : Bool
  merged_into : Option String
  conversion_ratio : ℚ
  withholding_tax_deducted : Bool
  domicile : String
deriving DecidableEq

/-- The resolver's mutable in-memory ticker dictionary. -/
def Cache : Type := String → Option TickerInfo

def Cache.insert (c : Cache) (k : String) (v : TickerInfo) : Cache :=
  fun t => if t = k then some v else c t

/- External metadata lookup (yfinance): is-ETF flag, currency, domicile. -/
variable (yf : String → Bool × String × String)

/- Calendar year of a date; dates are modelled as integer day counts. -/
variable (yearOf : Int → Int)

/- The evaluation date (datetime.now()) as a day count, and its year. -/
variable (nowDate nowYear : Int)

/-- src/ticker_utils.py, `add_missing_ticker_to_cache`: the entry built for an
unknown ticker from the external metadata source `yf`. -/
def add_missing_ticker_to_cache (ticker : String) : TickerInfo :=
  let info := yf ticker
  { type := if info.1 then "etf" else "stock"
    currency := info.2.1
    active := true
    merged_into := none
    conversion_ratio := 1
    withholding_tax_deducted := false
    domicile := info.2.2 }

/-- src/improved_calculator.py, `get_ticker_info`: `None` for missing and
sentinel tickers, cached entry when present, otherwise auto-add. -/
def get_ticker_info (c : Cache) (ticker : Option String) : Option TickerInfo × Cache :=
  match ticker with
  | none => (none, c)
  | some s =>
    if s = "" then (none, c)
    else
      let u := upper s
      if u = "NONE" ∨ u = "NAN" then (none, c)
      else
        match c u with
        | some info => (some info, c)
        | none =>
          let info := add_missing_ticker_to_cache yf u
          (some info, c.insert u info)

/-- Resolver access returning a pure function of the fetched entry, with the
cache threaded through — the shape shared by `normalize_ticker`,
`get_conversion_ratio`, `is_etf`, `is_active` and `get_domicile`. -/
def viaInfo (key : Option String) (g : Option TickerInfo → β) (c : Cache) : β × Cache :=
  let p := get_ticker_info yf c key
  (g p.1, p.2)

/-- src/improved_calculator.py, `normalize_ticker`: blank and NaN tickers give
`None`; a merged ticker resolves to its (truthy) merge target. -/
def normalize_ticker (c : Cache) (ticker : Option String) : Option String × Cache :=
  match ticker with
  | none => (none, c)
  | some s =>
    if s = "" ∨ upper s = "NAN" then (none, c)
    else
      viaInfo yf (some (upper s))
        (fun o =>
          match o with
          | none => none
          | some info =>
            match info.merged_into with
            | some m => if m = "" then some (upper s) else some m
            | none => some (upper s)) c

/-- src/improved_calculator.py, `get_conversion_ratio`: raises for an
unresolvable ticker. -/
def get_conversion_ratio (c : Cache) (ticker : Option String) :
    Except CalcError ℚ × Cache :=
  viaInfo yf ticker
    (fun o =>
      match o with
      | none => .error (.tickerNotFound (ticker.getD ""))
      | some info => .ok info.conversion_ratio) c

/-- src/improved_calculator.py, `is_etf`. -/
def is_etf (c : Cache) (ticker : Option String) : Except CalcError Bool × Cache :=
  viaInfo yf ticker
    (fun o =>
      match o with
      | none => .error (.tickerNotFound (ticker.getD ""))
      | some info => .ok (decide (info.type = "etf"))) c

/-- src/improved_calculator.py, `is_active`. -/
def is_active (c : Cache) (ticker : Option String) : Except CalcError Bool × Cache :=
  viaInfo yf ticker
    (fun o =>
      match o with
      | none => .error (.tickerNotFound (ticker.getD ""))
      | some info => .ok info.active) c

/-- src/improved_calculator.py, `get_domicile`. -/
def get_domicile (c : Cache) (ticker : Option String) :
    Except CalcError String × Cache :=
  viaInfo yf ticker
    (fun o =>
      match o with
      | none => .error (.tickerNotFound (ticker.getD ""))
      | some info => .ok info.domicile) c

/-- Transaction kinds produced by `classify_transaction_type`. -/
inductive TxKind where
  | buy
  | sell
  | dividend
  | merger_stock
  | merger_cash
  | merger
  | transfer_broker
  | transfer_merger
  | ignore
deriving DecidableEq

/-- Whether `pat` occurs as a contiguous run inside `s` (Python `in`). -/
def isPre : List Char → List Char → Bool
  | [], _ => true
  | _ :: _, [] => false
  | p :: ps, c :: cs => p = c && isPre ps cs

def hasSub (pat : List Char) : List Char → Bool
  | [] => pat.isEmpty
  | c :: rest => isPre pat (c :: rest) || hasSub pat rest

def strContains (s pat : String) : Bool :=
  hasSub pat.toList s.toList

/-- src/improved_calculator.py, `classify_transaction_type`: keyword-driven
kinds over the upper-cased type string. -/
def classify_transaction_type (type_str : Option String) : TxKind :=
  match type_str with
  | none => .ignore
  | some t =>
    let s := upper t
    if strContains s "BUY" then .buy
    else if strContains s "SELL" then .sell
    else if strContains s "DIVIDEND" then .dividend
    else if strContains s "MERGER" then
      if strContains s "STOCK" then .merger_stock
      else if strContains s "CASH" then .merger_cash
      else .merger
    else if strContains s "TRANSFER" &&
        strContains s "REVOLUT TRADING LTD TO REVOLUT SECURITIES EUROPE UAB" then
      .transfer_broker
    else if strContains s "TRANSFER" then .ignore
    else .ignore

/-- A raw spreadsheet row (required columns of `process_file`). -/
structure RawTx where
  date : Int
  ticker : Option String
  type_str : Option String
  quantity : ℚ
  price_str : Option String
  amount_str : Option String
  currency : String
  fx_rate : Option ℚ

/-- A processed row: the raw columns plus every derived column of
`process_transactions`. -/
structure PRow where
  date : Int
  year : Int
  ticker : Option String
  quantity : ℚ
  price_str : Option String
  amount_str : Option String
  currency : String
  fx_rate : Option ℚ
  ttype : TxKind
  normalized : Option String
  is_etf_col : Bool
  is_active_col : Bool
  amount_float : ℚ
  price_float : ℚ
  amount_eur : ℚ
  price_eur : ℚ
  fees_eur : ℚ

/-- A FIFO cost-basis lot (a queued buy of `process_transactions`). -/
structure Lot where
  quantity : ℚ
  price_per_share_eur : ℚ
  year : Int
deriving DecidableEq

/-- The FIFO consumption loop shared by the Sell and merger-removal branches
of `process_transactions`: while remaining > 0 and the queue is non-empty,
fully consume the front lot when its quantity is at most the remainder, else
decrement it and stop. Returns the consumed cost basis, the remainder left
when the loop stopped, and the new queue. -/
def consumeFIFO : ℚ → List Lot → ℚ × ℚ × List Lot
  | remaining, [] => (0, remaining, [])
  | remaining, lot :: rest =>
    if 0 < remaining then
      if lot.quantity ≤ remaining then
        let p := consumeFIFO (remaining - lot.quantity) rest
        (lot.quantity * lot.price_per_share_eur + p.1, p.2.1, p.2.2)
      else
        (remaining * lot.price_per_share_eur, 0,
          { lot with quantity := lot.quantity - remaining } :: rest)
    else (0, remaining, lot :: rest)

/-- Per-ticker replay state: the lot queue, the running totals, the yearly
tallies and the retained buy rows (for deemed disposal). -/
structure TickerAcc where
  buy_queue : List Lot
  total_shares : ℚ
  total_cost : ℚ
  realized_gains : Int → ℚ
  dividends : Int → ℚ
  dividends_irish : Int → ℚ
  dividends_foreign : Int → ℚ
  buy_transactions : List PRow

def emptyAcc : TickerAcc :=
  { buy_queue := []
    total_shares := 0
    total_cost := 0
    realized_gains := fun _ => 0
    dividends := fun _ => 0
    dividends_irish := fun _ => 0
    dividends_foreign := fun _ => 0
    buy_transactions := [] }

/-- defaultdict-style increment of a yearly tally. -/
def bump (f : Int → ℚ) (y : Int) (v : ℚ) : Int → ℚ :=
  fun y' => if y' = y then f y' + v else f y'

/-- One iteration of the per-transaction loop of `process_transactions`
(src/improved_calculator.py lines 370-500) for the ticker's accumulator. -/
def stepTx (is_etf_t : Bool) (tkr : String) (c : Cache) (acc : TickerAcc) (tx : PRow) :
    Except CalcError TickerAcc × Cache :=
  match tx.ttype with
  | .dividend =>
    let p := get_domicile yf c (some tkr)
    match p.1 with
    | .error e => (.error e, p.2)
    | .ok dom =>
      let acc1 := { acc with dividends := bump acc.dividends tx.year tx.amount_eur }
      if dom = "IE" then
        (.ok { acc1 with
          dividends_irish := bump acc1.dividends_irish tx.year tx.amount_eur }, p.2)
      else
        (.ok { acc1 with
          dividends_foreign := bump acc1.dividends_foreign tx.year tx.amount_eur }, p.2)
  | .buy =>
    let p := get_conversion_ratio yf c tx.ticker
    match p.1 with
    | .error e => (.error e, p.2)
    | .ok ratio =>
      let converted_quantity := tx.quantity * ratio
      let converted_price := if 0 < ratio then tx.price_eur / ratio else tx.price_eur
      (.ok { acc with
        buy_queue := acc.buy_queue ++ [⟨converted_quantity, converted_price, tx.year⟩]
        buy_transactions :=
          if is_etf_t then acc.buy_transactions ++ [tx] else acc.buy_transactions
        total_shares := acc.total_shares + converted_quantity
        total_cost := acc.total_cost + tx.price_eur * tx.quantity }, p.2)
  | .sell =>
    let p := get_conversion_ratio yf c tx.ticker
    match p.1 with
    | .error e => (.error e, p.2)
    | .ok ratio =>
      let converted_quantity := tx.quantity * ratio
      let r := consumeFIFO converted_quantity acc.buy_queue
      let share_proceeds := tx.price_eur * tx.quantity
      (.ok { acc with
        buy_queue := r.2.2
        total_shares := acc.total_shares - (converted_quantity - r.2.1)
        total_cost := acc.total_cost - r.1
        realized_gains := bump acc.realized_gains tx.year (share_proceeds - r.1) }, p.2)
  | .merger_stock | .merger =>
    if tx.quantity < 0 then
      let shares_to_remove := |tx.quantity|
      let r := consumeFIFO shares_to_remove acc.buy_queue
      (.ok { acc with
        buy_queue := r.2.2
        total_shares := acc.total_shares - (shares_to_remove - r.2.1)
        total_cost := acc.total_cost - r.1 }, c)
    else (.ok acc, c)
  | .merger_cash =>
    if 0 < tx.amount_eur then
      (.ok { acc with
        dividends := bump acc.dividends tx.year tx.amount_eur
        dividends_foreign := bump acc.dividends_foreign tx.year tx.amount_eur }, c)
    else (.ok acc, c)
  | .transfer_merger =>
    if 0 < tx.quantity then
      (.ok { acc with
        buy_queue := acc.buy_queue ++ [⟨tx.quantity, 0, tx.year⟩]
        buy_transactions :=
          if is_etf_t then acc.buy_transactions ++ [tx] else acc.buy_transactions
        total_shares := acc.total_shares + tx.quantity }, c)
    else (.ok acc, c)
  | _ => (.ok acc, c)

/-- Post-replay inactive-instrument handling (lines 503-510): the residual
cost basis is booked as a realized loss in the current year, the totals are
zeroed, and the queue is left as it is. -/
def inactiveAdjust (active : Bool) (acc : TickerAcc) : TickerAcc :=
  if !active && decide (0 < acc.total_shares) then
    { acc with
      realized_gains := bump acc.realized_gains nowYear (-acc.total_cost)
      total_shares := 0
      total_cost := 0 }
  else acc

/-- src/improved_calculator.py, `calculate_deemed_disposal_liability`: for
each retained buy held at least eight years at the evaluation date, a gain of
twenty percent of cost basis is recognized; the liability is 41 percent of
the total. Returns (total taxable gain, tax liability). -/
def calculate_deemed_disposal_liability (c : Cache) (tkr : String) (buys : List PRow) :
    Except CalcError (ℚ × ℚ) × Cache :=
  let p := is_etf yf c (some tkr)
  match p.1 with
  | .error e => (.error e, p.2)
  | .ok b =>
    if !b then (.ok (0, 0), p.2)
    else
      let total := buys.foldl
        (fun t tx =>
          if 8 ≤ ((nowDate - tx.date : ℚ) / (1461 / 4)) then
            let cost_basis := tx.price_eur * tx.quantity
            t + (cost_basis * (12 / 10) - cost_basis)
          else t) 0
      (.ok (total, total * (41 / 100)), p.2)

/-- src/improved_calculator.py, `get_weighted_fx_rate`: amount-weighted FX
rate over the non-EUR buy/sell rows with a present positive rate; raises when
none qualifies. -/
def get_weighted_fx_rate (ticker_transactions : List PRow) : Except CalcError ℚ :=
  let p := ticker_transactions.foldl
    (fun (t : ℚ × ℚ) tx =>
      if (tx.ttype = .buy ∨ tx.ttype = .sell) ∧ tx.currency ≠ "EUR" then
        match tx.fx_rate with
        | some r =>
          if 0 < r then (t.1 + tx.amount_eur * r, t.2 + tx.amount_eur) else t
        | none => t
      else t) (0, 0)
  if 0 < p.2 then .ok (p.1 / p.2) else .error .noValidFxRates

/-- Per-ticker detail record of the results dictionary. -/
structure TickerDetail where
  asset_type : String
  realized_gains : Int → ℚ
  unrealized_gains : Int → ℚ
  dividends : Int → ℚ
  dividends_irish : Int → ℚ
  dividends_foreign : Int → ℚ
  current_holdings : ℚ
  avg_cost_basis : ℚ
  deemed_disposal_liability : ℚ
  currency : String

/-- Per-asset-class summary of the results dictionary. -/
structure AssetSummary where
  realized_gains : Int → ℚ
  unrealized_gains : Int → ℚ
  dividends : Int → ℚ
  dividends_irish : Int → ℚ
  dividends_foreign : Int → ℚ
  deemed_disposal_gains : Int → ℚ

/-- The results dictionary of `process_transactions`. -/
structure Results where
  stocks : AssetSummary
  etfs : AssetSummary
  ticker_detail : List (String × TickerDetail)

def emptySummary : AssetSummary :=
  { realized_gains := fun _ => 0
    unrealized_gains := fun _ => 0
    dividends := fun _ => 0
    dividends_irish := fun _ => 0
    dividends_foreign := fun _ => 0
    deemed_disposal_gains := fun _ => 0 }

def emptyResults : Results :=
  { stocks := emptySummary, etfs := emptySummary, ticker_detail := [] }

def addMap (f g : Int → ℚ) : Int → ℚ := fun y => f y + g y

/-- Cache-threading map over a list (a df.apply column pass). -/
def cmap (f : Cache → α → β × Cache) : Cache → List α → List β × Cache
  | c, [] => ([], c)
  | c, a :: as =>
    let p := f c a
    let q := cmap f p.2 as
    (p.1 :: q.1, q.2)

/-- Cache-threading map that stops at the first raised error. -/
def emap (f : Cache → α → Except CalcError β × Cache) :
    Cache → List α → Except CalcError (List β) × Cache
  | c, [] => (.ok [], c)
  | c, a :: as =>
    match f c a with
    | (.error e, c') => (.error e, c')
    | (.ok b, c') =>
      match emap f c' as with
      | (.ok bs, c'') => (.ok (b :: bs), c'')
      | (.error e, c'') => (.error e, c'')

/-- Cache-threading fold that stops at the first raised error. -/
def efold (f : Cache → σ → α → Except CalcError σ × Cache) :
    Cache → σ → List α → Except CalcError σ × Cache
  | c, s, [] => (.ok s, c)
  | c, s, a :: as =>
    match f c s a with
    | (.error e, c') => (.error e, c')
    | (.ok s', c') => efold f c' s' as

/-- Initial columns: Year and TransactionType (lines 258-260). -/
def initRow (r : RawTx) : PRow :=
  { date := r.date
    year := yearOf r.date
    ticker := r.ticker
    quantity := r.quantity
    price_str := r.price_str
    amount_str := r.amount_str
    currency := r.currency
    fx_rate := r.fx_rate
    ttype := classify_transaction_type r.type_str
    normalized := none
    is_etf_col := false
    is_active_col := true
    amount_float := 0
    price_float := 0
    amount_eur := 0
    price_eur := 0
    fees_eur := 0 }

/-- First pass (lines 261-267): the set of normalized tickers that had a
merger transaction, as a list with membership semantics. -/
def mergerTickers : Cache → List PRow → List String × Cache
  | c, [] => ([], c)
  | c, row :: rest =>
    if row.ttype = .merger_stock ∨ row.ttype = .merger_cash ∨ row.ttype = .merger then
      let p := normalize_ticker yf c row.ticker
      let q := mergerTickers p.2 rest
      match p.1 with
      | some t => (t :: q.1, q.2)
      | none => q
    else mergerTickers c rest

/-- Second pass (lines 269-279): broker transfers become merger transfers
exactly when the normalized ticker had a merger, else are ignored. -/
def classify_transfer (mt : List String) (c : Cache) (row : PRow) : PRow × Cache :=
  if row.ttype = .transfer_broker then
    let p := normalize_ticker yf c row.ticker
    match p.1 with
    | some t =>
      if mt.contains t then ({ row with ttype := .transfer_merger }, p.2)
      else ({ row with ttype := .ignore }, p.2)
    | none => ({ row with ttype := .ignore }, p.2)
  else (row, c)

def isRelevantKind (k : TxKind) : Bool :=
  k = .buy || k = .sell || k = .dividend || k = .merger_stock || k = .merger_cash ||
    k = .merger || k = .transfer_merger

/-- NormalizedTicker column (lines 282-285). -/
def normalizeStage (c : Cache) (row : PRow) : PRow × Cache :=
  if isRelevantKind row.ttype then
    let p := normalize_ticker yf c row.ticker
    ({ row with normalized := p.1 }, p.2)
  else ({ row with normalized := none }, c)

/-- IsETF column (line 287). -/
def isEtfStage (c : Cache) (row : PRow) : Except CalcError PRow × Cache :=
  match row.normalized with
  | some t =>
    let p := is_etf yf c (some t)
    match p.1 with
    | .ok b => (.ok { row with is_etf_col := b }, p.2)
    | .error e => (.error e, p.2)
  | none => (.ok { row with is_etf_col := false }, c)

/-- IsActive column (line 288). -/
def isActiveStage (c : Cache) (row : PRow) : Except CalcError PRow × Cache :=
  match row.normalized with
  | some t =>
    let p := is_active yf c (some t)
    match p.1 with
    | .ok b => (.ok { row with is_active_col := b }, p.2)
    | .error e => (.error e, p.2)
  | none => (.ok { row with is_active_col := true }, c)

/-- TotalAmountFloat and PricePerShareFloat columns (lines 289-290). -/
def parseStage (row : PRow) : PRow :=
  { row with
    amount_float := parse_amount row.amount_str
    price_float := parse_amount row.price_str }

/-- TotalAmountEUR column (lines 292-298). -/
def convertAmountStage (c : Cache) (row : PRow) : Except CalcError PRow × Cache :=
  match convert_to_eur row.amount_float row.currency row.fx_rate with
  | .ok v => (.ok { row with amount_eur := v }, c)
  | .error e => (.error e, c)

/-- PricePerShareEUR column (lines 300-306). -/
def convertPriceStage (c : Cache) (row : PRow) : Except CalcError PRow × Cache :=
  match convert_to_eur row.price_float row.currency row.fx_rate with
  | .ok v => (.ok { row with price_eur := v }, c)
  | .error e => (.error e, c)

/-- FeesEUR column (lines 309-312). -/
def feesStage (row : PRow) : PRow :=
  { row with
    fees_eur :=
      if (row.ttype = .buy ∨ row.ttype = .sell) ∧ 0 < row.quantity then
        row.amount_eur - row.price_eur * row.quantity
      else 0 }

/-- Lines 314-317: keep the tax-relevant kinds with a usable normalized
ticker. -/
def relevantFilter (rows : List PRow) : List PRow :=
  rows.filter
    (fun r =>
      isRelevantKind r.ttype &&
        match r.normalized with
        | some t => !(t == "None")
        | none => false)

/-- Stable insertion by ascending date (`sort_values('Date')` on the ticker's
rows; pandas leaves the tie order unspecified, this model keeps input order). -/
def insertByDate (r : PRow) : List PRow → List PRow
  | [] => [r]
  | x :: xs => if x.date < r.date then x :: insertByDate r xs else r :: x :: xs

def sortByDate : List PRow → List PRow
  | [] => []
  | x :: xs => insertByDate x (sortByDate xs)

/-- `unique()` over the NormalizedTicker column: first-occurrence order. -/
def uniqueFirst : List String → List String → List String
  | _, [] => []
  | seen, x :: xs =>
    if seen.contains x then uniqueFirst seen xs
    else x :: uniqueFirst (x :: seen) xs

/-- Add one finished ticker into the running results (the summary additions
performed in lockstep with the per-ticker tallies during the loop, the deemed
disposal gain, and the detail record). -/
def addTicker (res : Results) (asset_type : String) (t : String) (detail : TickerDetail)
    (acc : TickerAcc) (deemedTaxable : ℚ) : Results :=
  let upd := fun (s : AssetSummary) =>
    { s with
      realized_gains := addMap s.realized_gains acc.realized_gains
      dividends := addMap s.dividends acc.dividends
      dividends_irish := addMap s.dividends_irish acc.dividends_irish
      dividends_foreign := addMap s.dividends_foreign acc.dividends_foreign }
  if asset_type = "etfs" then
    let s := upd res.etfs
    let s :=
      if 0 < deemedTaxable then
        { s with deemed_disposal_gains := bump s.deemed_disposal_gains nowYear deemedTaxable }
      else s
    { res with etfs := s, ticker_detail := res.ticker_detail ++ [(t, detail)] }
  else
    { res with
      stocks := upd res.stocks
      ticker_detail := res.ticker_detail ++ [(t, detail)] }

/-- The tail of the per-ticker loop (lines 503-554): inactive handling has
already run; compute holdings, average cost basis and display currency, and
fold the ticker into the results. -/
def finishTicker (c : Cache) (res : Results) (t : String) (asset_type : String)
    (ticker_data : List PRow) (acc1 : TickerAcc) (deemed : ℚ × ℚ) :
    Except CalcError Results × Cache :=
  let pg := get_ticker_info yf c (some t)
  match pg.1 with
  | none => (.error (.tickerNotFound t), pg.2)
  | some info =>
    let original_currency := info.currency
    let ac :=
      if original_currency = "EUR" then
        ((if 0 < acc1.total_shares then acc1.total_cost / acc1.total_shares else 0), "EUR")
      else
        if 0 < acc1.total_shares then
          match get_weighted_fx_rate ticker_data with
          | .ok fx => ((acc1.total_cost * fx) / acc1.total_shares, original_currency)
          | .error _ => (acc1.total_cost / acc1.total_shares, original_currency)
        else (0, original_currency)
    let detail : TickerDetail :=
      { asset_type := asset_type
        realized_gains := acc1.realized_gains
        unrealized_gains := fun _ => 0
        dividends := acc1.dividends
        dividends_irish := acc1.dividends_irish
        dividends_foreign := acc1.dividends_foreign
        current_holdings := acc1.total_shares
        avg_cost_basis := ac.1
        deemed_disposal_liability := deemed.2
        currency := ac.2 }
    (.ok (addTicker nowYear res asset_type t detail acc1 deemed.1), pg.2)

/-- The body of the per-ticker loop (lines 356-554) as a step of the fold over
the distinct normalized tickers. -/
def processOneTicker (relevant : List PRow) (c : Cache) (res : Results) (t : String) :
    Except CalcError Results × Cache :=
  let ticker_data := sortByDate (relevant.filter (fun r => r.normalized = some t))
  let pe := is_etf yf c (some t)
  match pe.1 with
  | .error e => (.error e, pe.2)
  | .ok etf =>
    let asset_type := if etf then "etfs" else "stocks"
    match efold (stepTx yf etf t) pe.2 emptyAcc ticker_data with
    | (.error e, c1) => (.error e, c1)
    | (.ok acc0, c1) =>
      let pa := is_active yf c1 (some t)
      match pa.1 with
      | .error e => (.error e, pa.2)
      | .ok act =>
        let acc1 := inactiveAdjust nowYear act acc0
        if etf && !acc1.buy_transactions.isEmpty then
          match calculate_deemed_disposal_liability yf nowDate pa.2 t acc1.buy_transactions with
          | (.error e, c2) => (.error e, c2)
          | (.ok deemed, c2) =>
            finishTicker yf nowYear c2 res t asset_type ticker_data acc1 deemed
        else
          finishTicker yf nowYear pa.2 res t asset_type ticker_data acc1 (0, 0)

/-- src/improved_calculator.py, `process_transactions` (lines 255-556): the
column passes, the relevance filter, and the per-ticker FIFO replay and
aggregation, with the resolver cache threaded throughout. -/
def process_transactions (c : Cache) (df : List RawTx) : Except CalcError Results × Cache :=
  let rows0 := df.map (initRow yearOf)
  let p1 := mergerTickers yf c rows0
  let p2 := cmap (classify_transfer yf p1.1) p1.2 rows0
  let p3 := cmap (normalizeStage yf) p2.2 p2.1
  match emap (isEtfStage yf) p3.2 p3.1 with
  | (.error e, c4) => (.error e, c4)
  | (.ok rows4, c4) =>
    match emap (isActiveStage yf) c4 rows4 with
    | (.error e, c5) => (.error e, c5)
    | (.ok rows5, c5) =>
      let rows6 := rows5.map parseStage
      match emap convertAmountStage c5 rows6 with
      | (.error e, c6) => (.error e, c6)
      | (.ok rows7, c6) =>
        match emap convertPriceStage c6 rows7 with
        | (.error e, c7) => (.error e, c7)
        | (.ok rows8, c7) =>
          let rows9 := rows8.map feesStage
          let relevant := relevantFilter rows9
          let tickers := uniqueFirst [] (relevant.filterMap (fun r => r.normalized))
          efold (processOneTicker yf nowDate nowYear relevant) c7 emptyResults tickers

def sumQty (q : List Lot) : ℚ := (q.map Lot.quantity).sum

def sumCost (q : List Lot) : ℚ := (q.map (fun l => l.quantity * l.price_per_share_eur)).sum

theorem consumeFIFO_sums : ∀ (queue : List Lot) (rem : ℚ),
    sumQty (consumeFIFO rem queue).2.2 =
      sumQty queue - (rem - (consumeFIFO rem queue).2.1) ∧
    sumCost (consumeFIFO rem queue).2.2 = sumCost queue - (consumeFIFO rem queue).1 := by
  intro queue
  induction queue with
  | nil =>
    intro rem
    simp [consumeFIFO, sumQty, sumCost]
  | cons lot rest ih =>
    intro rem
    rw [consumeFIFO]
    by_cases h0 : 0 < rem
    · rw [if_pos h0]
      by_cases hle : lot.quantity ≤ rem
      · rw [if_pos hle]
        obtain ⟨ihq, ihc⟩ := ih (rem - lot.quantity)
        constructor
        · simp only [sumQty, List.map_cons, List.sum_cons] at *
          rw [ihq]; ring
        · simp only [sumCost, List.map_cons, List.sum_cons] at *
          rw [ihc]; ring
      · rw [if_neg hle]
        constructor
        · simp only [sumQty, List.map_cons, List.sum_cons]
          ring
        · simp only [sumCost, List.map_cons, List.sum_cons]
          ring
    · rw [if_neg h0]
      constructor
      · simp [sumQty]
      · simp [sumCost]

theorem consumeFIFO_oversell : ∀ (queue : List Lot) (rem : ℚ),
    (∀ l ∈ queue, 0 ≤ l.quantity) → sumQty queue < rem →
    consumeFIFO rem queue = (sumCost queue, rem - sumQty queue, []) := by
  intro queue
  induction queue with
  | nil =>
    intro rem _ _
    simp [consumeFIFO, sumQty, sumCost]
  | cons lot rest ih =>
    intro rem hnn hover
    have hq0 : 0 ≤ lot.quantity := hnn lot (by simp)
    have hrest0 : 0 ≤ sumQty rest := by
      simp only [sumQty]
      apply List.sum_nonneg
      intro x hx
      obtain ⟨l, hl, hlx⟩ := List.mem_map.mp hx
      exact hlx ▸ hnn l (List.mem_cons_of_mem _ hl)
    have hsum : sumQty (lot :: rest) = lot.quantity + sumQty rest := by
      simp [sumQty]
    have h0 : 0 < rem := lt_of_le_of_lt (by rw [hsum]; positivity) hover
    have hle : lot.quantity ≤ rem := by
      rw [hsum] at hover
      linarith
    rw [consumeFIFO, if_pos h0, if_pos hle,
      ih (rem - lot.quantity) (fun l hl => hnn l (List.mem_cons_of_mem _ hl))
        (by rw [hsum] at hover; linarith)]
    simp only [sumCost, sumQty, List.map_cons, List.sum_cons]
    exact Prod.ext rfl (Prod.ext (by ring) rfl)

theorem consumeFIFO_exact : ∀ (queue : List Lot) (rem : ℚ),
    (∀ l ∈ queue, 0 ≤ l.quantity) → 0 ≤ rem → rem ≤ sumQty queue →
    (consumeFIFO rem queue).2.1 = 0 := by
  intro queue
  induction queue with
  | nil =>
    intro rem _ h0 hle
    have : rem = 0 := le_antisymm (by simpa [sumQty] using hle) h0
    simp [consumeFIFO, this]
  | cons lot rest ih =>
    intro rem hnn h0 hle
    rw [consumeFIFO]
    by_cases hpos : 0 < rem
    · rw [if_pos hpos]
      by_cases hq : lot.quantity ≤ rem
      · rw [if_pos hq]
        exact ih (rem - lot.quantity) (fun l hl => hnn l (List.mem_cons_of_mem _ hl))
          (by linarith)
          (by simp only [sumQty, List.map_cons, List.sum_cons] at hle ⊢; linarith)
      · rw [if_neg hq]
    · rw [if_neg hpos]
      exact le_antisymm (not_lt.mp hpos) h0

theorem consumeFIFO_pos : ∀ (queue : List Lot) (rem : ℚ),
    (∀ l ∈ queue, 0 < l.quantity) →
    ∀ l ∈ (consumeFIFO rem queue).2.2, 0 < l.quantity := by
  intro queue
  induction queue with
  | nil => intro rem _ l hl; simp [consumeFIFO] at hl
  | cons lot rest ih =>
    intro rem hpos l hl
    rw [consumeFIFO] at hl
    by_cases h0 : 0 < rem
    · rw [if_pos h0] at hl
      by_cases hq : lot.quantity ≤ rem
      · rw [if_pos hq] at hl
        exact ih (rem - lot.quantity) (fun x hx => hpos x (List.mem_cons_of_mem _ hx)) l hl
      · rw [if_neg hq] at hl
        rcases List.mem_cons.mp hl with h1 | h1
        · subst h1
          simpa using sub_pos.mpr (not_le.mp hq)
        · exact hpos l (List.mem_cons_of_mem _ h1)
    · rw [if_neg h0] at hl
      exact hpos l hl

/-- Cache growth: every cached entry survives (the resolver only ever adds
missing tickers, it never overwrites). -/
def Mono (c c' : Cache) : Prop := ∀ t v, c t = some v → c' t = some v

theorem Mono.rfl (c : Cache) : Mono c c := fun _ _ h => h

theorem Mono.trans {a b c : Cache} (h1 : Mono a b) (h2 : Mono b c) : Mono a c :=
  fun t v h => h2 t v (h1 t v h)

/-- A cache-threading computation is stable when it only grows the cache and,
run again from any larger cache, returns the same value without growing it. -/
def Stable (f : Cache → β × Cache) : Prop :=
  ∀ c r c', f c = (r, c') → Mono c c' ∧ ∀ d, Mono c' d → f d = (r, d)

theorem Stable.const (b : β) : Stable (fun c => (b, c)) := by
  intro c r c' h
  obtain ⟨rfl, rfl⟩ := Prod.mk.injEq _ _ _ _ ▸ h
  exact ⟨Mono.rfl _, fun d _ => rfl⟩

theorem get_ticker_info_stable (tk : Option String) :
    Stable (fun c => get_ticker_info yf c tk) := by
  intro c o c' h
  match tk with
  | none =>
    simp only [get_ticker_info] at h
    obtain ⟨rfl, rfl⟩ := Prod.mk.injEq _ _ _ _ ▸ h
    exact ⟨Mono.rfl _, fun d _ => rfl⟩
  | some s =>
    simp only [get_ticker_info] at h ⊢
    by_cases hs : s = ""
    · rw [if_pos hs] at h
      obtain ⟨rfl, rfl⟩ := Prod.mk.injEq _ _ _ _ ▸ h
      refine ⟨Mono.rfl _, fun d _ => ?_⟩
      rw [if_pos hs]
    · rw [if_neg hs] at h
      by_cases hn : upper s = "NONE" ∨ upper s = "NAN"
      · rw [if_pos hn] at h
        obtain ⟨rfl, rfl⟩ := Prod.mk.injEq _ _ _ _ ▸ h
        refine ⟨Mono.rfl _, fun d _ => ?_⟩
        rw [if_neg hs, if_pos hn]
      · rw [if_neg hn] at h
        cases hcu : c (upper s) with
        | some info =>
          rw [hcu] at h
          obtain ⟨rfl, rfl⟩ := Prod.mk.injEq _ _ _ _ ▸ h
          refine ⟨Mono.rfl _, fun d hd => ?_⟩
          rw [if_neg hs, if_neg hn, hd _ _ hcu]
        | none =>
          rw [hcu] at h
          obtain ⟨rfl, rfl⟩ := Prod.mk.injEq _ _ _ _ ▸ h
          constructor
          · intro t v htv
            simp only [Cache.insert]
            by_cases ht : t = upper s
            · rw [ht] at htv
              rw [htv] at hcu
              cases hcu
            · rw [if_neg ht]
              exact htv
          · intro d hd
            have hdu : d (upper s) = some (add_missing_ticker_to_cache yf (upper s)) :=
              hd _ _ (by simp [Cache.insert])
            rw [if_neg hs, if_neg hn, hdu]

theorem viaInfo_stable (key : Option String) (g : Option TickerInfo → β) :
    Stable (fun c => viaInfo yf key g c) := by
  intro c r c' h
  rcases heq : get_ticker_info yf c key with ⟨o, c1⟩
  simp only [viaInfo, heq] at h
  obtain ⟨rfl, rfl⟩ := Prod.mk.injEq _ _ _ _ ▸ h
  obtain ⟨hm, hrep⟩ := get_ticker_info_stable yf key c o c1 heq
  refine ⟨hm, fun d hd => ?_⟩
  simp only [viaInfo, hrep d hd]

theorem normalize_ticker_stable (tk : Option String) :
    Stable (fun c => normalize_ticker yf c tk) := by
  match tk with
  | none =>
    simp only [normalize_ticker]
    exact Stable.const none
  | some s =>
    by_cases hb : s = "" ∨ upper s = "NAN"
    · simp only [normalize_ticker, if_pos hb]
      exact Stable.const none
    · simp only [normalize_ticker, if_neg hb]
      exact viaInfo_stable yf _ _

theorem get_conversion_ratio_stable (tk : Option String) :
    Stable (fun c => get_conversion_ratio yf c tk) :=
  viaInfo_stable yf _ _

theorem is_etf_stable (tk : Option String) :
    Stable (fun c => is_etf yf c tk) :=
  viaInfo_stable yf _ _

theorem is_active_stable (tk : Option String) :
    Stable (fun c => is_active yf c tk) :=
  viaInfo_stable yf _ _

theorem get_domicile_stable (tk : Option String) :
    Stable (fun c => get_domicile yf c tk) :=
  viaInfo_stable yf _ _

/-- All conversion ratios recorded in the cache are positive (the resolver
default is 1.0). -/
def RatioOK (c : Cache) : Prop :=
  ∀ t i, c t = some i → 0 < i.conversion_ratio

theorem get_ticker_info_ratio (tk : Option String) (c : Cache) (o : Option TickerInfo)
    (c' : Cache) (hok : RatioOK c) (h : get_ticker_info yf c tk = (o, c')) :
    RatioOK c' ∧ ∀ i, o = some i → 0 < i.conversion_ratio := by
  match tk with
  | none =>
    simp only [get_ticker_info] at h
    obtain ⟨rfl, rfl⟩ := Prod.mk.injEq _ _ _ _ ▸ h
    exact ⟨hok, fun i hi => by cases hi⟩
  | some s =>
    simp only [get_ticker_info] at h
    by_cases hs : s = ""
    · rw [if_pos hs] at h
      obtain ⟨rfl, rfl⟩ := Prod.mk.injEq _ _ _ _ ▸ h
      exact ⟨hok, fun i hi => by cases hi⟩
    · rw [if_neg hs] at h
      by_cases hn : upper s = "NONE" ∨ upper s = "NAN"
      · rw [if_pos hn] at h
        obtain ⟨rfl, rfl⟩ := Prod.mk.injEq _ _ _ _ ▸ h
        exact ⟨hok, fun i hi => by cases hi⟩
      · rw [if_neg hn] at h
        cases hcu : c (upper s) with
        | some info =>
          rw [hcu] at h
          obtain ⟨rfl, rfl⟩ := Prod.mk.injEq _ _ _ _ ▸ h
          refine ⟨hok, fun i hi => ?_⟩
          cases hi
          exact hok _ _ hcu
        | none =>
          rw [hcu] at h
          obtain ⟨rfl, rfl⟩ := Prod.mk.injEq _ _ _ _ ▸ h
          constructor
          · intro t i hti
            simp only [Cache.insert] at hti
            by_cases ht : t = upper s
            · rw [if_pos ht] at hti
              cases hti
              norm_num [add_missing_ticker_to_cache]
            · rw [if_neg ht] at hti
              exact hok _ _ hti
          · intro i hi
            cases hi
            norm_num [add_missing_ticker_to_cache]

theorem get_conversion_ratio_pos (tk : Option String) (c : Cache) (r : ℚ) (c' : Cache)
    (hok : RatioOK c) (h : get_conversion_ratio yf c tk = (.ok r, c')) :
    0 < r ∧ RatioOK c' := by
  rcases heq : get_ticker_info yf c tk with ⟨o, c1⟩
  simp only [get_conversion_ratio, viaInfo, heq] at h
  obtain ⟨hro, hco⟩ := get_ticker_info_ratio yf tk c o c1 hok heq
  cases o with
  | none => simp at h
  | some info =>
    simp only at h
    obtain ⟨hr, rfl⟩ := Prod.mk.injEq _ _ _ _ ▸ h
    cases hr
    exact ⟨hco info rfl, hro⟩

/- Concrete fixtures used to instantiate the theorems below. -/

def infoAAA : TickerInfo :=
  { type := "stock"
    currency := "EUR"
    active := true
    merged_into := none
    conversion_ratio := 1
    withholding_tax_deducted := false
    domicile := "US" }

def cacheAAA : Cache := fun t => if t = "AAA" then some infoAAA else none

def yf0 : String → Bool × String × String := fun _ => (false, "USD", "US")

/-- A processed EUR row for a given kind, ticker, quantity, unit price, year. -/
def mkRow (k : TxKind) (tic : String) (q p : ℚ) (y : Int) : PRow :=
  { date := 0
    year := y
    ticker := some tic
    quantity := q
    price_str := none
    amount_str := none
    currency := "EUR"
    fx_rate := none
    ttype := k
    normalized := some tic
    is_etf_col := false
    is_active_col := true
    amount_float := 0
    price_float := 0
    amount_eur := q * p
    price_eur := p
    fees_eur := 0 }

/-- Claim C1: FIFO oldest-first consumption. While remaining > 0 the front lot
is fully consumed (dequeued, its cost accumulated) when its quantity is at
most the remainder, else partially consumed (quantity decremented, remainder
becomes zero); a Sell books realized gain = sale unit price times sale
quantity minus the consumed cost basis into the transaction's year; ticker
tallies roll into the asset-class summary; and for buys at unit costs 10, 20,
30 (quantity 1 each) followed by a sell of quantity 2 the consumed cost basis
is 30. -/
theorem c1_fifo_sell_gain (rem : ℚ) (lot : Lot) (rest : List Lot)
    (ie : Bool) (tkr : String) (c : Cache) (acc : TickerAcc) (tx : PRow) (ratio : ℚ)
    (hsell : tx.ttype = .sell)
    (hratio : get_conversion_ratio yf c tx.ticker = (.ok ratio, c)) :
    (0 < rem → lot.quantity ≤ rem →
      consumeFIFO rem (lot :: rest) =
        (lot.quantity * lot.price_per_share_eur + (consumeFIFO (rem - lot.quantity) rest).1,
          (consumeFIFO (rem - lot.quantity) rest).2.1,
          (consumeFIFO (rem - lot.quantity) rest).2.2)) ∧
    (0 < rem → rem < lot.quantity →
      consumeFIFO rem (lot :: rest) =
        (rem * lot.price_per_share_eur, 0,
          { lot with quantity := lot.quantity - rem } :: rest)) ∧
    stepTx yf ie tkr c acc tx =
      (.ok { acc with
        buy_queue := (consumeFIFO (tx.quantity * ratio) acc.buy_queue).2.2
        total_shares := acc.total_shares -
          (tx.quantity * ratio - (consumeFIFO (tx.quantity * ratio) acc.buy_queue).2.1)
        total_cost := acc.total_cost - (consumeFIFO (tx.quantity * ratio) acc.buy_queue).1
        realized_gains := bump acc.realized_gains tx.year
          (tx.price_eur * tx.quantity - (consumeFIFO (tx.quantity * ratio) acc.buy_queue).1) },
        c) ∧
    (∀ res t detail dt y,
      (addTicker nowYear res "stocks" t detail acc dt).stocks.realized_gains y =
        res.stocks.realized_gains y + acc.realized_gains y) ∧
    consumeFIFO 2 [⟨1, 10, 2021⟩, ⟨1, 20, 2021⟩, ⟨1, 30, 2021⟩] = (30, 0, [⟨1, 30, 2021⟩]) := by
  refine ⟨?_, ?_, ?_, ?_, ?_⟩
  · intro h1 h2
    rw [consumeFIFO, if_pos h1, if_pos h2]
  · intro h1 h2
    rw [consumeFIFO, if_pos h1, if_neg (not_le.mpr h2)]
  · simp only [stepTx, hsell, hratio]
  · intro res t detail dt y
    simp [addTicker, addMap]
  · norm_num [consumeFIFO]

/-- Witness for C1 at the worked FIFO example. -/
theorem c1_fifo_sell_gain_witness :
    consumeFIFO 2 [⟨1, 10, 2021⟩, ⟨1, 20, 2021⟩, ⟨1, 30, 2021⟩] = (30, 0, [⟨1, 30, 2021⟩]) :=
  (c1_fifo_sell_gain yf0 0 2 ⟨1, 10, 2021⟩ [] false "AAA" cacheAAA emptyAcc
    (mkRow .sell "AAA" 2 25 2021) 1 rfl (by rfl)).2.2.2.2

/-- Claim C6: oversold positions pass silently. When the converted sell
quantity exceeds the queue total, the loop consumes the whole queue and stops
with a positive remainder, no error is raised and nothing is flagged — the
step returns an ordinary state whose realized gain subtracts only the cost
basis of the lots actually consumed. -/
theorem c6_oversold_silent (rem : ℚ) (queue : List Lot)
    (ie : Bool) (tkr : String) (c : Cache) (acc : TickerAcc) (tx : PRow) (ratio : ℚ)
    (hnn : ∀ l ∈ queue, 0 ≤ l.quantity) (hover : sumQty queue < rem)
    (hsell : tx.ttype = .sell)
    (hratio : get_conversion_ratio yf c tx.ticker = (.ok ratio, c))
    (hnn2 : ∀ l ∈ acc.buy_queue, 0 ≤ l.quantity)
    (hover2 : sumQty acc.buy_queue < tx.quantity * ratio) :
    consumeFIFO rem queue = (sumCost queue, rem - sumQty queue, []) ∧
    0 < rem - sumQty queue ∧
    stepTx yf ie tkr c acc tx =
      (.ok { acc with
        buy_queue := []
        total_shares := acc.total_shares - sumQty acc.buy_queue
        total_cost := acc.total_cost - sumCost acc.buy_queue
        realized_gains := bump acc.realized_gains tx.year
          (tx.price_eur * tx.quantity - sumCost acc.buy_queue) }, c) := by
  refine ⟨consumeFIFO_oversell queue rem hnn hover, sub_pos.mpr hover, ?_⟩
  simp only [stepTx, hsell, hratio, consumeFIFO_oversell acc.buy_queue _ hnn2 hover2]
  have he : tx.quantity * ratio - (tx.quantity * ratio - sumQty acc.buy_queue) =
      sumQty acc.buy_queue := by ring
  rw [he]

/-- Witness for C6: selling 5 out of a queue holding 1 share. -/
theorem c6_oversold_silent_witness :
    consumeFIFO 5 [⟨1, 10, 2021⟩] = (10, 4, []) := by
  have h := (c6_oversold_silent yf0 5 [⟨1, 10, 2021⟩] false "AAA" cacheAAA
    { emptyAcc with buy_queue := [⟨1, 10, 2021⟩], total_shares := 1, total_cost := 10 }
    (mkRow .sell "AAA" 5 25 2021) 1
    (by intro l hl; simp at hl; subst hl; norm_num)
    (by norm_num [sumQty]) rfl (by rfl)
    (by intro l hl; simp at hl; subst hl; norm_num)
    (by norm_num [sumQty, mkRow])).1
  rw [h]
  norm_num [sumQty, sumCost]

theorem consumeFIFO_nonneg : ∀ (queue : List Lot) (rem : ℚ),
    (∀ l ∈ queue, 0 ≤ l.quantity) →
    ∀ l ∈ (consumeFIFO rem queue).2.2, 0 ≤ l.quantity := by
  intro queue
  induction queue with
  | nil => intro rem _ l hl; simp [consumeFIFO] at hl
  | cons lot rest ih =>
    intro rem hpos l hl
    rw [consumeFIFO] at hl
    by_cases h0 : 0 < rem
    · rw [if_pos h0] at hl
      by_cases hq : lot.quantity ≤ rem
      · rw [if_pos hq] at hl
        exact ih (rem - lot.quantity) (fun x hx => hpos x (List.mem_cons_of_mem _ hx)) l hl
      · rw [if_neg hq] at hl
        rcases List.mem_cons.mp hl with h1 | h1
        · subst h1
          simpa using (sub_pos.mpr (not_le.mp hq)).le
        · exact hpos l (List.mem_cons_of_mem _ h1)
    · rw [if_neg h0] at hl
      exact hpos l hl

theorem sumQty_append (q : List Lot) (l : Lot) :
    sumQty (q ++ [l]) = sumQty q + l.quantity := by
  simp [sumQty]

theorem sumCost_append (q : List Lot) (l : Lot) :
    sumCost (q ++ [l]) = sumCost q + l.quantity * l.price_per_share_eur := by
  simp [sumCost]

theorem sumQty_nonneg (q : List Lot) (h : ∀ l ∈ q, 0 ≤ l.quantity) : 0 ≤ sumQty q := by
  simp only [sumQty]
  apply List.sum_nonneg
  intro x hx
  obtain ⟨l, hl, hlx⟩ := List.mem_map.mp hx
  exact hlx ▸ h l hl


theorem okPair_inj {α : Type} {x y : α} {c1 c2 : Cache}
    (h : ((Except.ok x : Except CalcError α), c1) = (.ok y, c2)) : x = y ∧ c1 = c2 := by
  injection h with h1 h2
  injection h1 with h1
  exact ⟨h1, h2⟩

/-- Claim C10 as amended: with positive Buy and TransferFromMerger quantities
and positive resolver conversion ratios, every lot in the queue stays
positive after each processed event, the running total equals the queue total
and is nonnegative, and an oversold Sell or merger removal drives the total
to exactly zero, never below. -/
theorem c10_residual_never_negative (ie : Bool) (tkr : String) (c : Cache)
    (acc : TickerAcc) (tx : PRow) (acc' : TickerAcc) (c' : Cache)
    (hqpos : (tx.ttype = .buy ∨ tx.ttype = .transfer_merger) → 0 < tx.quantity)
    (hrok : RatioOK c)
    (hpos : ∀ l ∈ acc.buy_queue, 0 < l.quantity)
    (hinv : acc.total_shares = sumQty acc.buy_queue)
    (hstep : stepTx yf ie tkr c acc tx = (.ok acc', c')) :
    (∀ l ∈ acc'.buy_queue, 0 < l.quantity) ∧
    acc'.total_shares = sumQty acc'.buy_queue ∧
    0 ≤ acc'.total_shares ∧
    (∀ r, tx.ttype = .sell → get_conversion_ratio yf c tx.ticker = (.ok r, c') →
      sumQty acc.buy_queue < tx.quantity * r → acc'.total_shares = 0) ∧
    ((tx.ttype = .merger_stock ∨ tx.ttype = .merger) → tx.quantity < 0 →
      sumQty acc.buy_queue < |tx.quantity| → acc'.total_shares = 0) := by
  have hnn : ∀ l ∈ acc.buy_queue, 0 ≤ l.quantity := fun l hl => (hpos l hl).le
  have hsum0 : 0 ≤ sumQty acc.buy_queue := sumQty_nonneg _ hnn
  cases htt : tx.ttype <;> simp only [stepTx, htt] at hstep
  case dividend =>
    rcases heq : get_domicile yf c (some tkr) with ⟨o, c1⟩
    rw [heq] at hstep
    cases o with
    | error e => simp at hstep
    | ok dom =>
      simp only at hstep
      by_cases hd : dom = "IE"
      · rw [if_pos hd] at hstep
        obtain ⟨h1, h2⟩ := okPair_inj hstep
        subst h1
        subst h2
        exact ⟨hpos, hinv, hinv ▸ hsum0, fun r hs _ _ => by simp [htt] at hs,
        fun hm _ _ => by rcases hm with h | h <;> simp [htt] at h⟩
      · rw [if_neg hd] at hstep
        obtain ⟨h1, h2⟩ := okPair_inj hstep
        subst h1
        subst h2
        exact ⟨hpos, hinv, hinv ▸ hsum0, fun r hs _ _ => by simp [htt] at hs,
        fun hm _ _ => by rcases hm with h | h <;> simp [htt] at h⟩
  case buy =>
    rcases heq : get_conversion_ratio yf c tx.ticker with ⟨o, c1⟩
    rw [heq] at hstep
    cases o with
    | error e => simp at hstep
    | ok ratio =>
      simp only at hstep
      obtain ⟨h1, h2⟩ := okPair_inj hstep
      subst h1
      subst h2
      obtain ⟨hr, _⟩ := get_conversion_ratio_pos yf tx.ticker c ratio c1 hrok heq
      have hq := hqpos (Or.inl htt)
      have hlot : 0 < tx.quantity * ratio := mul_pos hq hr
      refine ⟨?_, ?_, ?_, fun r hs _ _ => by simp [htt] at hs,
        fun hm _ _ => by rcases hm with h | h <;> simp [htt] at h⟩
      · intro l hl
        rcases List.mem_append.mp hl with h2 | h2
        · exact hpos l h2
        · simp at h2
          subst h2
          exact hlot
      · dsimp only
        rw [sumQty_append, hinv]
      · dsimp only
        rw [hinv]
        linarith [hsum0, hlot]
  case sell =>
    rcases heq : get_conversion_ratio yf c tx.ticker with ⟨o, c1⟩
    rw [heq] at hstep
    cases o with
    | error e => simp at hstep
    | ok ratio =>
      simp only at hstep
      obtain ⟨h1, h2⟩ := okPair_inj hstep
      subst h1
      subst h2
      obtain ⟨hsq, hsc⟩ := consumeFIFO_sums acc.buy_queue (tx.quantity * ratio)
      have hnn' := consumeFIFO_nonneg acc.buy_queue (tx.quantity * ratio) hnn
      refine ⟨consumeFIFO_pos _ _ hpos, ?_, ?_, ?_,
        fun hm _ _ => by rcases hm with h | h <;> simp [htt] at h⟩
      · dsimp only
        rw [hsq, hinv]
      · have h0 := sumQty_nonneg _ hnn'
        rw [hsq] at h0
        dsimp only
        linarith [hinv]
      · intro r hs hgc hover
        obtain ⟨h4, h5⟩ := okPair_inj hgc
        subst h4
        dsimp only
        rw [consumeFIFO_oversell acc.buy_queue _ hnn hover]
        dsimp only
        rw [hinv]
        ring
  case merger_stock =>
    by_cases hneg : tx.quantity < 0
    · rw [if_pos hneg] at hstep
      obtain ⟨h1, h2⟩ := okPair_inj hstep
      subst h1
      subst h2
      obtain ⟨hsq, hsc⟩ := consumeFIFO_sums acc.buy_queue |tx.quantity|
      have hnn' := consumeFIFO_nonneg acc.buy_queue |tx.quantity| hnn
      refine ⟨consumeFIFO_pos _ _ hpos, ?_, ?_, fun r hs _ _ => by simp [htt] at hs,
        fun _ _ hover => ?_⟩
      · dsimp only
        rw [hsq, hinv]
      · have h0 := sumQty_nonneg _ hnn'
        rw [hsq] at h0
        dsimp only
        linarith [hinv]
      · dsimp only
        rw [consumeFIFO_oversell acc.buy_queue _ hnn hover]
        dsimp only
        rw [hinv]
        ring
    · rw [if_neg hneg] at hstep
      obtain ⟨h1, h2⟩ := okPair_inj hstep
      subst h1
      subst h2
      exact ⟨hpos, hinv, hinv ▸ hsum0, fun r hs _ _ => by simp [htt] at hs,
        fun _ hqneg _ => absurd hqneg hneg⟩
  case merger =>
    by_cases hneg : tx.quantity < 0
    · rw [if_pos hneg] at hstep
      obtain ⟨h1, h2⟩ := okPair_inj hstep
      subst h1
      subst h2
      obtain ⟨hsq, hsc⟩ := consumeFIFO_sums acc.buy_queue |tx.quantity|
      have hnn' := consumeFIFO_nonneg acc.buy_queue |tx.quantity| hnn
      refine ⟨consumeFIFO_pos _ _ hpos, ?_, ?_, fun r hs _ _ => by simp [htt] at hs,
        fun _ _ hover => ?_⟩
      · dsimp only
        rw [hsq, hinv]
      · have h0 := sumQty_nonneg _ hnn'
        rw [hsq] at h0
        dsimp only
        linarith [hinv]
      · dsimp only
        rw [consumeFIFO_oversell acc.buy_queue _ hnn hover]
        dsimp only
        rw [hinv]
        ring
    · rw [if_neg hneg] at hstep
      obtain ⟨h1, h2⟩ := okPair_inj hstep
      subst h1
      subst h2
      exact ⟨hpos, hinv, hinv ▸ hsum0, fun r hs _ _ => by simp [htt] at hs,
        fun _ hqneg _ => absurd hqneg hneg⟩
  case merger_cash =>
    by_cases hamt : 0 < tx.amount_eur
    · rw [if_pos hamt] at hstep
      obtain ⟨h1, h2⟩ := okPair_inj hstep
      subst h1
      subst h2
      exact ⟨hpos, hinv, hinv ▸ hsum0, fun r hs _ _ => by simp [htt] at hs,
        fun hm _ _ => by rcases hm with h | h <;> simp [htt] at h⟩
    · rw [if_neg hamt] at hstep
      obtain ⟨h1, h2⟩ := okPair_inj hstep
      subst h1
      subst h2
      exact ⟨hpos, hinv, hinv ▸ hsum0, fun r hs _ _ => by simp [htt] at hs,
        fun hm _ _ => by rcases hm with h | h <;> simp [htt] at h⟩
  case transfer_merger =>
    by_cases hq : 0 < tx.quantity
    · rw [if_pos hq] at hstep
      obtain ⟨h1, h2⟩ := okPair_inj hstep
      subst h1
      subst h2
      refine ⟨?_, ?_, ?_, fun r hs _ _ => by simp [htt] at hs,
        fun hm _ _ => by rcases hm with h | h <;> simp [htt] at h⟩
      · intro l hl
        rcases List.mem_append.mp hl with h2 | h2
        · exact hpos l h2
        · simp at h2
          subst h2
          exact hq
      · dsimp only
        rw [sumQty_append, hinv]
      · dsimp only
        rw [hinv]
        linarith [hsum0, hq]
    · rw [if_neg hq] at hstep
      obtain ⟨h1, h2⟩ := okPair_inj hstep
      subst h1
      subst h2
      exact ⟨hpos, hinv, hinv ▸ hsum0, fun r hs _ _ => by simp [htt] at hs,
        fun hm _ _ => by rcases hm with h | h <;> simp [htt] at h⟩
  case transfer_broker =>
    obtain ⟨h1, h2⟩ := okPair_inj hstep
    subst h1
    subst h2
    exact ⟨hpos, hinv, hinv ▸ hsum0, fun r hs _ _ => by simp [htt] at hs,
      fun hm _ _ => by rcases hm with h | h <;> simp [htt] at h⟩
  case ignore =>
    obtain ⟨h1, h2⟩ := okPair_inj hstep
    subst h1
    subst h2
    exact ⟨hpos, hinv, hinv ▸ hsum0, fun r hs _ _ => by simp [htt] at hs,
      fun hm _ _ => by rcases hm with h | h <;> simp [htt] at h⟩

theorem cacheAAA_ratioOK : RatioOK cacheAAA := by
  intro t i h
  by_cases ht : t = "AAA"
  · subst ht
    simp [cacheAAA] at h
    rw [← h]
    norm_num [infoAAA]
  · simp [cacheAAA, ht] at h

/-- Witness for C10 at a concrete positive buy. -/
theorem c10_residual_never_negative_witness :
    ∃ a, stepTx yf0 false "AAA" cacheAAA emptyAcc (mkRow .buy "AAA" 1 10 2021) =
        (.ok a, cacheAAA) ∧ 0 ≤ a.total_shares := by
  refine ⟨_, (by rfl), ?_⟩
  exact (c10_residual_never_negative yf0 false "AAA" cacheAAA emptyAcc
    (mkRow .buy "AAA" 1 10 2021) _ cacheAAA
    (fun _ => by norm_num [mkRow])
    cacheAAA_ratioOK
    (by intro l hl; simp [emptyAcc] at hl)
    (by simp [emptyAcc, sumQty])
    (by rfl)).2.2.1

/-- Counterexample to claim C10 as stated: a Buy with (nonnegative) quantity
zero enqueues a lot whose quantity is not positive. -/
theorem c10_counterexample_zero_quantity_buy :
    ∃ a, stepTx yf0 false "AAA" cacheAAA emptyAcc (mkRow .buy "AAA" 0 10 2021) =
        (.ok a, cacheAAA) ∧
      0 ≤ (mkRow .buy "AAA" 0 10 2021).quantity ∧
      ¬ (∀ l ∈ a.buy_queue, 0 < l.quantity) := by
  refine ⟨_, (by rfl), by norm_num [mkRow], ?_⟩
  intro hall
  have h := hall _ (List.mem_append.mpr (Or.inr (List.mem_singleton.mpr rfl)))
  norm_num [mkRow, infoAAA] at h

theorem viaInfo_ratioOK {β : Type} (key : Option String) (g : Option TickerInfo → β)
    (c : Cache) (r : β) (c' : Cache) (hok : RatioOK c)
    (h : viaInfo yf key g c = (r, c')) : RatioOK c' := by
  rcases heq : get_ticker_info yf c key with ⟨o, c1⟩
  simp only [viaInfo, heq] at h
  obtain ⟨-, rfl⟩ := Prod.mk.injEq _ _ _ _ ▸ h
  exact (get_ticker_info_ratio yf key c o c1 hok heq).1

/-- Per-event preservation of the ledger running-total invariant: after every
processed Buy, Sell, merger and transfer, total_shares is the queue quantity
total and total_cost the queue cost total, and cached ratios stay positive. -/
theorem stepTx_ledger_inv (ie : Bool) (tkr : String) (c : Cache)
    (acc : TickerAcc) (tx : PRow) (acc' : TickerAcc) (c' : Cache)
    (hrok : RatioOK c)
    (hsh : acc.total_shares = sumQty acc.buy_queue)
    (hco : acc.total_cost = sumCost acc.buy_queue)
    (hstep : stepTx yf ie tkr c acc tx = (.ok acc', c')) :
    acc'.total_shares = sumQty acc'.buy_queue ∧
    acc'.total_cost = sumCost acc'.buy_queue ∧ RatioOK c' := by
  cases htt : tx.ttype <;> simp only [stepTx, htt] at hstep
  case dividend =>
    rcases heq : get_domicile yf c (some tkr) with ⟨o, c1⟩
    rw [heq] at hstep
    have hok1 : RatioOK c1 := viaInfo_ratioOK yf _ _ c o c1 hrok heq
    cases o with
    | error e => simp at hstep
    | ok dom =>
      simp only at hstep
      by_cases hd : dom = "IE"
      · rw [if_pos hd] at hstep
        obtain ⟨h1, h2⟩ := okPair_inj hstep
        subst h1
        subst h2
        exact ⟨hsh, hco, hok1⟩
      · rw [if_neg hd] at hstep
        obtain ⟨h1, h2⟩ := okPair_inj hstep
        subst h1
        subst h2
        exact ⟨hsh, hco, hok1⟩
  case buy =>
    rcases heq : get_conversion_ratio yf c tx.ticker with ⟨o, c1⟩
    rw [heq] at hstep
    cases o with
    | error e => simp at hstep
    | ok ratio =>
      simp only at hstep
      obtain ⟨h1, h2⟩ := okPair_inj hstep
      subst h1
      subst h2
      obtain ⟨hr, hok1⟩ := get_conversion_ratio_pos yf tx.ticker c ratio c1 hrok heq
      refine ⟨?_, ?_, hok1⟩
      · dsimp only
        rw [sumQty_append, hsh]
      · dsimp only
        rw [sumCost_append, hco, if_pos hr]
        dsimp only
        field_simp
        ring
  case sell =>
    rcases heq : get_conversion_ratio yf c tx.ticker with ⟨o, c1⟩
    rw [heq] at hstep
    cases o with
    | error e => simp at hstep
    | ok ratio =>
      simp only at hstep
      obtain ⟨h1, h2⟩ := okPair_inj hstep
      subst h1
      subst h2
      obtain ⟨hok1⟩ := And.intro (get_conversion_ratio_pos yf tx.ticker c ratio c1 hrok heq) trivial
      obtain ⟨hsq, hsc⟩ := consumeFIFO_sums acc.buy_queue (tx.quantity * ratio)
      refine ⟨?_, ?_, hok1.2⟩
      · dsimp only
        rw [hsq, hsh]
      · dsimp only
        rw [hsc, hco]
  case merger_stock =>
    by_cases hneg : tx.quantity < 0
    · rw [if_pos hneg] at hstep
      obtain ⟨h1, h2⟩ := okPair_inj hstep
      subst h1
      subst h2
      obtain ⟨hsq, hsc⟩ := consumeFIFO_sums acc.buy_queue |tx.quantity|
      refine ⟨?_, ?_, hrok⟩
      · dsimp only
        rw [hsq, hsh]
      · dsimp only
        rw [hsc, hco]
    · rw [if_neg hneg] at hstep
      obtain ⟨h1, h2⟩ := okPair_inj hstep
      subst h1
      subst h2
      exact ⟨hsh, hco, hrok⟩
  case merger =>
    by_cases hneg : tx.quantity < 0
    · rw [if_pos hneg] at hstep
      obtain ⟨h1, h2⟩ := okPair_inj hstep
      subst h1
      subst h2
      obtain ⟨hsq, hsc⟩ := consumeFIFO_sums acc.buy_queue |tx.quantity|
      refine ⟨?_, ?_, hrok⟩
      · dsimp only
        rw [hsq, hsh]
      · dsimp only
        rw [hsc, hco]
    · rw [if_neg hneg] at hstep
      obtain ⟨h1, h2⟩ := okPair_inj hstep
      subst h1
      subst h2
      exact ⟨hsh, hco, hrok⟩
  case merger_cash =>
    by_cases hamt : 0 < tx.amount_eur
    · rw [if_pos hamt] at hstep
      obtain ⟨h1, h2⟩ := okPair_inj hstep
      subst h1
      subst h2
      exact ⟨hsh, hco, hrok⟩
    · rw [if_neg hamt] at hstep
      obtain ⟨h1, h2⟩ := okPair_inj hstep
      subst h1
      subst h2
      exact ⟨hsh, hco, hrok⟩
  case transfer_merger =>
    by_cases hq : 0 < tx.quantity
    · rw [if_pos hq] at hstep
      obtain ⟨h1, h2⟩ := okPair_inj hstep
      subst h1
      subst h2
      refine ⟨?_, ?_, hrok⟩
      · dsimp only
        rw [sumQty_append, hsh]
      · dsimp only
        rw [sumCost_append, hco]
        ring
    · rw [if_neg hq] at hstep
      obtain ⟨h1, h2⟩ := okPair_inj hstep
      subst h1
      subst h2
      exact ⟨hsh, hco, hrok⟩
  case transfer_broker =>
    obtain ⟨h1, h2⟩ := okPair_inj hstep
    subst h1
    subst h2
    exact ⟨hsh, hco, hrok⟩
  case ignore =>
    obtain ⟨h1, h2⟩ := okPair_inj hstep
    subst h1
    subst h2
    exact ⟨hsh, hco, hrok⟩

/-- The accumulator state after a Buy with fetched conversion ratio `r`. -/
def buyAcc (acc : TickerAcc) (tx : PRow) (r : ℚ) (ie : Bool) : TickerAcc :=
  { acc with
    buy_queue := acc.buy_queue ++
      [⟨tx.quantity * r, if 0 < r then tx.price_eur / r else tx.price_eur, tx.year⟩]
    buy_transactions :=
      if ie then acc.buy_transactions ++ [tx] else acc.buy_transactions
    total_shares := acc.total_shares + tx.quantity * r
    total_cost := acc.total_cost + tx.price_eur * tx.quantity }

/-- The accumulator state after a Sell with fetched conversion ratio `r`. -/
def sellAcc (acc : TickerAcc) (tx : PRow) (r : ℚ) : TickerAcc :=
  { acc with
    buy_queue := (consumeFIFO (tx.quantity * r) acc.buy_queue).2.2
    total_shares := acc.total_shares -
      (tx.quantity * r - (consumeFIFO (tx.quantity * r) acc.buy_queue).2.1)
    total_cost := acc.total_cost - (consumeFIFO (tx.quantity * r) acc.buy_queue).1
    realized_gains := bump acc.realized_gains tx.year
      (tx.price_eur * tx.quantity - (consumeFIFO (tx.quantity * r) acc.buy_queue).1) }

theorem stepTx_buy_eq (ie : Bool) (tkr : String) (c : Cache) (acc : TickerAcc)
    (tx : PRow) (r : ℚ) (c1 : Cache) (hb : tx.ttype = .buy)
    (hgc : get_conversion_ratio yf c tx.ticker = (.ok r, c1)) :
    stepTx yf ie tkr c acc tx = (.ok (buyAcc acc tx r ie), c1) := by
  simp only [stepTx, hb, hgc, buyAcc]

theorem stepTx_sell_eq (ie : Bool) (tkr : String) (c : Cache) (acc : TickerAcc)
    (tx : PRow) (r : ℚ) (c1 : Cache) (hs : tx.ttype = .sell)
    (hgc : get_conversion_ratio yf c tx.ticker = (.ok r, c1)) :
    stepTx yf ie tkr c acc tx = (.ok (sellAcc acc tx r), c1) := by
  simp only [stepTx, hs, hgc, sellAcc]

def sumBuys (txs : List PRow) : ℚ :=
  (txs.map (fun tx => if tx.ttype = .buy then tx.quantity else 0)).sum

def sumSells (txs : List PRow) : ℚ :=
  (txs.map (fun tx => if tx.ttype = .sell then tx.quantity else 0)).sum

/-- Replay balance check: every sell fits in the running balance. -/
def noOversell : ℚ → List PRow → Bool
  | _, [] => true
  | bal, tx :: rest =>
    if tx.ttype = .sell then decide (tx.quantity ≤ bal) && noOversell (bal - tx.quantity) rest
    else if tx.ttype = .buy then noOversell (bal + tx.quantity) rest
    else noOversell bal rest

theorem replay_conservation : ∀ (txs : List PRow) (ie : Bool) (tkr : String) (c : Cache)
    (acc : TickerAcc),
    (∀ tx ∈ txs, tx.ttype = .buy ∨ tx.ttype = .sell) →
    (∀ tx ∈ txs, 0 ≤ tx.quantity) →
    (∀ tx ∈ txs, get_conversion_ratio yf c tx.ticker = (.ok 1, c)) →
    (∀ l ∈ acc.buy_queue, 0 ≤ l.quantity) →
    acc.total_shares = sumQty acc.buy_queue →
    noOversell acc.total_shares txs = true →
    ∃ acc', efold (stepTx yf ie tkr) c acc txs = (.ok acc', c) ∧
      acc'.total_shares = acc.total_shares + sumBuys txs - sumSells txs := by
  intro txs
  induction txs with
  | nil =>
    intro ie tkr c acc _ _ _ _ _ _
    exact ⟨acc, rfl, by simp [sumBuys, sumSells]⟩
  | cons tx rest ih =>
    intro ie tkr c acc hbs hq hrat hnn hinv hno
    have htl : ∀ f : PRow → Prop, (∀ t ∈ tx :: rest, f t) → ∀ t ∈ rest, f t :=
      fun f hf t ht => hf t (List.mem_cons_of_mem _ ht)
    have hq1 : 0 ≤ tx.quantity := hq tx (by simp)
    rcases hbs tx (by simp) with hb | hs
    · have hgc := hrat tx (by simp)
      have hbs2 : ¬ tx.ttype = .sell := by rw [hb]; intro h; cases h
      rw [noOversell.eq_def] at hno
      dsimp only at hno
      rw [if_neg hbs2, if_pos hb] at hno
      obtain ⟨acc', heq, hshares⟩ := ih ie tkr c (buyAcc acc tx 1 ie)
        (htl _ hbs) (htl _ hq) (htl _ hrat)
        (by
          intro l hl
          simp only [buyAcc] at hl
          rcases List.mem_append.mp hl with h2 | h2
          · exact hnn l h2
          · simp at h2
            subst h2
            simpa using hq1)
        (by simp only [buyAcc]; rw [sumQty_append, hinv])
        (by
          simp only [buyAcc]
          simpa [mul_one] using hno)
      refine ⟨acc', ?_, ?_⟩
      · rw [efold, stepTx_buy_eq yf ie tkr c acc tx 1 c hb hgc]
        exact heq
      · rw [hshares]
        simp only [buyAcc, sumBuys, sumSells, List.map_cons, List.sum_cons, hb,
          eq_self_iff_true, reduceCtorEq, if_false, if_true]
        ring
    · have hgc := hrat tx (by simp)
      rw [noOversell.eq_def] at hno
      dsimp only at hno
      rw [if_pos hs] at hno
      simp only [Bool.and_eq_true, decide_eq_true_eq] at hno
      obtain ⟨hle, hno2⟩ := hno
      have hrem : (consumeFIFO (tx.quantity * 1) acc.buy_queue).2.1 = 0 := by
        rw [mul_one]
        exact consumeFIFO_exact acc.buy_queue tx.quantity hnn hq1 (hinv ▸ hle)
      obtain ⟨hsq, hsc⟩ := consumeFIFO_sums acc.buy_queue (tx.quantity * 1)
      obtain ⟨acc', heq, hshares⟩ := ih ie tkr c (sellAcc acc tx 1)
        (htl _ hbs) (htl _ hq) (htl _ hrat)
        (by
          simp only [sellAcc]
          exact consumeFIFO_nonneg acc.buy_queue (tx.quantity * 1) hnn)
        (by simp only [sellAcc]; rw [hsq, hinv])
        (by
          simp only [sellAcc]
          rw [hrem, mul_one]
          simpa using hno2)
      refine ⟨acc', ?_, ?_⟩
      · rw [efold, stepTx_sell_eq yf ie tkr c acc tx 1 c hs hgc]
        exact heq
      · rw [hshares]
        simp only [sellAcc, sumBuys, sumSells, List.map_cons, List.sum_cons, hs,
          eq_self_iff_true, reduceCtorEq, if_false, if_true]
        rw [hrem]
        ring

/-- Claim C3 as amended: during replay the running totals track the queue —
after every processed Buy, Sell, merger and transfer, total_shares equals the
sum of lot quantities and total_cost the sum of lot cost bases (given positive
conversion ratios), and for any Buy/Sell sequence with no oversell the
residual quantity equals the sum of buys minus the sum of sells. The
post-replay inactive-instrument handling, however, zeroes the totals without
clearing the queue, so the equality fails there (see the counterexample). -/
theorem c3_ledger_conservation :
    (∀ (ie : Bool) (tkr : String) (c : Cache) (acc : TickerAcc) (tx : PRow)
        (acc' : TickerAcc) (c' : Cache),
      RatioOK c →
      acc.total_shares = sumQty acc.buy_queue →
      acc.total_cost = sumCost acc.buy_queue →
      stepTx yf ie tkr c acc tx = (.ok acc', c') →
      acc'.total_shares = sumQty acc'.buy_queue ∧
      acc'.total_cost = sumCost acc'.buy_queue ∧ RatioOK c') ∧
    (∀ (txs : List PRow) (ie : Bool) (tkr : String) (c : Cache),
      (∀ tx ∈ txs, tx.ttype = .buy ∨ tx.ttype = .sell) →
      (∀ tx ∈ txs, 0 ≤ tx.quantity) →
      (∀ tx ∈ txs, get_conversion_ratio yf c tx.ticker = (.ok 1, c)) →
      noOversell 0 txs = true →
      ∃ acc', efold (stepTx yf ie tkr) c emptyAcc txs = (.ok acc', c) ∧
        acc'.total_shares = sumBuys txs - sumSells txs) := by
  constructor
  · intro ie tkr c acc tx acc' c' hrok hsh hco hstep
    exact stepTx_ledger_inv yf ie tkr c acc tx acc' c' hrok hsh hco hstep
  · intro txs ie tkr c h1 h2 h3 h4
    obtain ⟨acc', heq, hsh⟩ := replay_conservation yf txs ie tkr c emptyAcc h1 h2 h3
      (by intro l hl; simp [emptyAcc] at hl)
      (by simp [emptyAcc, sumQty])
      (by simpa [emptyAcc] using h4)
    refine ⟨acc', heq, ?_⟩
    rw [hsh]
    simp [emptyAcc]

/-- Witness for C3: buy two shares then sell one leaves exactly one. -/
theorem c3_ledger_conservation_witness :
    ∃ acc', efold (stepTx yf0 false "AAA") cacheAAA emptyAcc
        [mkRow .buy "AAA" 2 10 2021, mkRow .sell "AAA" 1 25 2021] = (.ok acc', cacheAAA) ∧
      acc'.total_shares =
        sumBuys [mkRow .buy "AAA" 2 10 2021, mkRow .sell "AAA" 1 25 2021] -
          sumSells [mkRow .buy "AAA" 2 10 2021, mkRow .sell "AAA" 1 25 2021] :=
  (c3_ledger_conservation yf0).2
    [mkRow .buy "AAA" 2 10 2021, mkRow .sell "AAA" 1 25 2021] false "AAA" cacheAAA
    (by intro t ht; simp at ht; rcases ht with rfl | rfl
        · left; rfl
        · right; rfl)
    (by intro t ht; simp at ht; rcases ht with rfl | rfl <;> norm_num [mkRow])
    (by intro t ht; simp at ht; rcases ht with rfl | rfl <;> rfl)
    (by simp [noOversell, mkRow])

/-- A replay state holding one residual share. -/
def accOneShare : TickerAcc :=
  { emptyAcc with
    buy_queue := [⟨1, 10, 2021⟩]
    total_shares := 1
    total_cost := 10 }

/-- Counterexample to claim C3 as stated ("at all times ... and the
post-replay inactive-instrument handling"): after the inactive handling on a
residual holding of one share, total_shares is zero while the queue still
sums to one. -/
theorem c3_counterexample_inactive_handling :
    (inactiveAdjust 2025 false accOneShare).total_shares = 0 ∧
    sumQty (inactiveAdjust 2025 false accOneShare).buy_queue = 1 ∧
    ((0 : ℚ) = 1 → False) := by
  refine ⟨?_, ?_, by norm_num⟩
  · norm_num [inactiveAdjust, accOneShare]
  · norm_num [inactiveAdjust, accOneShare, sumQty]

theorem Stable.seq {α β : Type} (f : Cache → α × Cache) (g : α → Cache → β × Cache)
    (hf : Stable f) (hg : ∀ a, Stable (g a)) :
    Stable (fun c => g (f c).1 (f c).2) := by
  intro c r c' h
  rcases heq : f c with ⟨a, c1⟩
  dsimp only at h
  rw [heq] at h
  dsimp only at h
  obtain ⟨hm1, hr1⟩ := hf c a c1 heq
  obtain ⟨hm2, hr2⟩ := hg a c1 r c' h
  refine ⟨Mono.trans hm1 hm2, fun d hd => ?_⟩
  show g (f d).1 (f d).2 = (r, d)
  rw [hr1 d (Mono.trans hm2 hd)]
  exact hr2 d hd

theorem cmap_stable {α β : Type} (f : Cache → α → β × Cache)
    (hf : ∀ a, Stable (fun c => f c a)) :
    ∀ as, Stable (fun c => cmap f c as) := by
  intro as
  induction as with
  | nil =>
    intro c r c' h
    simp only [cmap] at h
    obtain ⟨rfl, rfl⟩ := Prod.mk.injEq _ _ _ _ ▸ h
    exact ⟨Mono.rfl _, fun d _ => by simp [cmap]⟩
  | cons a as ih =>
    intro c r c' h
    simp only [cmap] at h
    rcases heq : f c a with ⟨b, c1⟩
    rw [heq] at h
    rcases heq2 : cmap f c1 as with ⟨bs, c2⟩
    rw [heq2] at h
    dsimp only at h
    obtain ⟨rfl, rfl⟩ := Prod.mk.injEq _ _ _ _ ▸ h
    obtain ⟨hm1, hr1⟩ := hf a c b c1 heq
    obtain ⟨hm2, hr2⟩ := ih c1 bs c2 heq2
    refine ⟨Mono.trans hm1 hm2, fun d hd => ?_⟩
    have e1 := hr1 d (Mono.trans hm2 hd)
    have e2 := hr2 d hd
    dsimp only at e1 e2
    simp only [cmap]
    rw [e1]
    dsimp only
    rw [e2]

theorem emap_stable {α β : Type} (f : Cache → α → Except CalcError β × Cache)
    (hf : ∀ a, Stable (fun c => f c a)) :
    ∀ as, Stable (fun c => emap f c as) := by
  intro as
  induction as with
  | nil =>
    intro c r c' h
    simp only [emap] at h
    obtain ⟨rfl, rfl⟩ := Prod.mk.injEq _ _ _ _ ▸ h
    exact ⟨Mono.rfl _, fun d _ => by simp [emap]⟩
  | cons a as ih =>
    intro c r c' h
    simp only [emap] at h
    rcases heq : f c a with ⟨o, c1⟩
    rw [heq] at h
    obtain ⟨hm1, hr1⟩ := hf a c o c1 heq
    cases o with
    | error e =>
      dsimp only at h
      obtain ⟨rfl, rfl⟩ := Prod.mk.injEq _ _ _ _ ▸ h
      refine ⟨hm1, fun d hd => ?_⟩
      have e1 := hr1 d hd
      dsimp only at e1
      simp only [emap]
      rw [e1]
    | ok b =>
      dsimp only at h
      rcases heq2 : emap f c1 as with ⟨os, c2⟩
      rw [heq2] at h
      obtain ⟨hm2, hr2⟩ := ih c1 os c2 heq2
      cases os with
      | error e =>
        dsimp only at h
        obtain ⟨rfl, rfl⟩ := Prod.mk.injEq _ _ _ _ ▸ h
        refine ⟨Mono.trans hm1 hm2, fun d hd => ?_⟩
        have e1 := hr1 d (Mono.trans hm2 hd)
        have e2 := hr2 d hd
        dsimp only at e1 e2
        simp only [emap]
        rw [e1]
        dsimp only
        rw [e2]
      | ok bs =>
        dsimp only at h
        obtain ⟨rfl, rfl⟩ := Prod.mk.injEq _ _ _ _ ▸ h
        refine ⟨Mono.trans hm1 hm2, fun d hd => ?_⟩
        have e1 := hr1 d (Mono.trans hm2 hd)
        have e2 := hr2 d hd
        dsimp only at e1 e2
        simp only [emap]
        rw [e1]
        dsimp only
        rw [e2]

theorem efold_stable {σ α : Type} (f : Cache → σ → α → Except CalcError σ × Cache)
    (hf : ∀ s a, Stable (fun c => f c s a)) :
    ∀ as s, Stable (fun c => efold f c s as) := by
  intro as
  induction as with
  | nil =>
    intro s c r c' h
    simp only [efold] at h
    obtain ⟨rfl, rfl⟩ := Prod.mk.injEq _ _ _ _ ▸ h
    exact ⟨Mono.rfl _, fun d _ => by simp [efold]⟩
  | cons a as ih =>
    intro s c r c' h
    simp only [efold] at h
    rcases heq : f c s a with ⟨o, c1⟩
    rw [heq] at h
    obtain ⟨hm1, hr1⟩ := hf s a c o c1 heq
    cases o with
    | error e =>
      dsimp only at h
      obtain ⟨rfl, rfl⟩ := Prod.mk.injEq _ _ _ _ ▸ h
      refine ⟨hm1, fun d hd => ?_⟩
      have e1 := hr1 d hd
      dsimp only at e1
      simp only [efold]
      rw [e1]
    | ok s' =>
      dsimp only at h
      obtain ⟨hm2, hr2⟩ := ih s' c1 r c' h
      refine ⟨Mono.trans hm1 hm2, fun d hd => ?_⟩
      have e1 := hr1 d (Mono.trans hm2 hd)
      have e2 := hr2 d hd
      dsimp only at e1 e2
      simp only [efold]
      rw [e1]
      dsimp only
      exact e2

theorem Stable.post {α β : Type} (f : Cache → α × Cache) (φ : α → β)
    (hf : Stable f) : Stable (fun c => (φ (f c).1, (f c).2)) := by
  intro c r c' h
  rcases heq : f c with ⟨a, c1⟩
  dsimp only at h
  rw [heq] at h
  dsimp only at h
  obtain ⟨rfl, rfl⟩ := Prod.mk.injEq _ _ _ _ ▸ h
  obtain ⟨hm, hrep⟩ := hf c a c1 heq
  refine ⟨hm, fun d hd => ?_⟩
  show (φ (f d).1, (f d).2) = _
  rw [hrep d hd]

theorem mergerTickers_stable :
    ∀ rows, Stable (fun c => mergerTickers yf c rows) := by
  intro rows
  induction rows with
  | nil =>
    simp only [mergerTickers]
    exact Stable.const _
  | cons row rest ih =>
    by_cases hm : row.ttype = .merger_stock ∨ row.ttype = .merger_cash ∨ row.ttype = .merger
    · simp only [mergerTickers, if_pos hm]
      exact Stable.seq (fun c => normalize_ticker yf c row.ticker)
        (fun o c2 =>
          match o with
          | some t => (t :: (mergerTickers yf c2 rest).1, (mergerTickers yf c2 rest).2)
          | none => mergerTickers yf c2 rest)
        (normalize_ticker_stable yf row.ticker)
        (fun o => by
          cases o with
          | none => exact ih
          | some t => exact Stable.post _ (fun l => t :: l) ih)
    · simp only [mergerTickers, if_neg hm]
      exact ih

theorem classify_transfer_stable (mt : List String) (row : PRow) :
    Stable (fun c => classify_transfer yf mt c row) := by
  by_cases ht : row.ttype = .transfer_broker
  · simp only [classify_transfer, if_pos ht]
    exact Stable.seq (fun c => normalize_ticker yf c row.ticker)
      (fun o c2 =>
        match o with
        | some t =>
          if mt.contains t then ({ row with ttype := .transfer_merger }, c2)
          else ({ row with ttype := .ignore }, c2)
        | none => ({ row with ttype := .ignore }, c2))
      (normalize_ticker_stable yf row.ticker)
      (fun o => by
        cases o with
        | none => exact Stable.const _
        | some t =>
          by_cases hc : mt.contains t
          · simp only [if_pos hc]
            exact Stable.const _
          · simp only [if_neg hc]
            exact Stable.const _)
  · simp only [classify_transfer, if_neg ht]
    exact Stable.const _

theorem normalizeStage_stable (row : PRow) :
    Stable (fun c => normalizeStage yf c row) := by
  by_cases hr : isRelevantKind row.ttype
  · simp only [normalizeStage, if_pos hr]
    exact Stable.seq (fun c => normalize_ticker yf c row.ticker)
      (fun o c2 => ({ row with normalized := o }, c2))
      (normalize_ticker_stable yf row.ticker)
      (fun o => Stable.const _)
  · simp only [normalizeStage, if_neg hr]
    exact Stable.const _

theorem isEtfStage_stable (row : PRow) :
    Stable (fun c => isEtfStage yf c row) := by
  cases hn : row.normalized with
  | none =>
    simp only [isEtfStage, hn]
    exact Stable.const _
  | some t =>
    simp only [isEtfStage, hn]
    exact Stable.seq (fun c => is_etf yf c (some t))
      (fun o c2 =>
        match o with
        | .ok b => ((.ok { row with normalized := some t, is_etf_col := b } : Except CalcError PRow), c2)
        | .error e => ((.error e : Except CalcError PRow), c2))
      (is_etf_stable yf (some t))
      (fun o => by cases o <;> exact Stable.const _)

theorem isActiveStage_stable (row : PRow) :
    Stable (fun c => isActiveStage yf c row) := by
  cases hn : row.normalized with
  | none =>
    simp only [isActiveStage, hn]
    exact Stable.const _
  | some t =>
    simp only [isActiveStage, hn]
    exact Stable.seq (fun c => is_active yf c (some t))
      (fun o c2 =>
        match o with
        | .ok b => ((.ok { row with normalized := some t, is_active_col := b } : Except CalcError PRow), c2)
        | .error e => ((.error e : Except CalcError PRow), c2))
      (is_active_stable yf (some t))
      (fun o => by cases o <;> exact Stable.const _)

theorem convertAmountStage_stable (row : PRow) :
    Stable (fun c => convertAmountStage c row) := by
  cases hcv : convert_to_eur row.amount_float row.currency row.fx_rate with
  | ok v =>
    simp only [convertAmountStage, hcv]
    exact Stable.const _
  | error e =>
    simp only [convertAmountStage, hcv]
    exact Stable.const _

theorem convertPriceStage_stable (row : PRow) :
    Stable (fun c => convertPriceStage c row) := by
  cases hcv : convert_to_eur row.price_float row.currency row.fx_rate with
  | ok v =>
    simp only [convertPriceStage, hcv]
    exact Stable.const _
  | error e =>
    simp only [convertPriceStage, hcv]
    exact Stable.const _

theorem stepTx_stable (ie : Bool) (tkr : String) (acc : TickerAcc) (tx : PRow) :
    Stable (fun c => stepTx yf ie tkr c acc tx) := by
  intro c r c' h
  dsimp only at h
  cases htt : tx.ttype <;> simp only [stepTx, htt] at h
  case dividend =>
    rcases heq : get_domicile yf c (some tkr) with ⟨o, c1⟩
    rw [heq] at h
    obtain ⟨hm, hrep⟩ := get_domicile_stable yf (some tkr) c o c1 heq
    cases o with
    | error e =>
      dsimp only at h
      obtain ⟨rfl, rfl⟩ := Prod.mk.injEq _ _ _ _ ▸ h
      refine ⟨hm, fun d hd => ?_⟩
      have e1 := hrep d hd
      dsimp only at e1
      simp only [stepTx, htt, e1]
    | ok dom =>
      dsimp only at h
      by_cases hdm : dom = "IE"
      · rw [if_pos hdm] at h
        obtain ⟨rfl, rfl⟩ := Prod.mk.injEq _ _ _ _ ▸ h
        refine ⟨hm, fun d hd => ?_⟩
        have e1 := hrep d hd
        dsimp only at e1
        simp only [stepTx, htt, e1]
        rw [if_pos hdm]
      · rw [if_neg hdm] at h
        obtain ⟨rfl, rfl⟩ := Prod.mk.injEq _ _ _ _ ▸ h
        refine ⟨hm, fun d hd => ?_⟩
        have e1 := hrep d hd
        dsimp only at e1
        simp only [stepTx, htt, e1]
        rw [if_neg hdm]
  case buy =>
    rcases heq : get_conversion_ratio yf c tx.ticker with ⟨o, c1⟩
    rw [heq] at h
    obtain ⟨hm, hrep⟩ := get_conversion_ratio_stable yf tx.ticker c o c1 heq
    cases o with
    | error e =>
      dsimp only at h
      obtain ⟨rfl, rfl⟩ := Prod.mk.injEq _ _ _ _ ▸ h
      refine ⟨hm, fun d hd => ?_⟩
      have e1 := hrep d hd
      dsimp only at e1
      simp only [stepTx, htt, e1]
    | ok ratio =>
      dsimp only at h
      obtain ⟨rfl, rfl⟩ := Prod.mk.injEq _ _ _ _ ▸ h
      refine ⟨hm, fun d hd => ?_⟩
      have e1 := hrep d hd
      dsimp only at e1
      simp only [stepTx, htt, e1]
  case sell =>
    rcases heq : get_conversion_ratio yf c tx.ticker with ⟨o, c1⟩
    rw [heq] at h
    obtain ⟨hm, hrep⟩ := get_conversion_ratio_stable yf tx.ticker c o c1 heq
    cases o with
    | error e =>
      dsimp only at h
      obtain ⟨rfl, rfl⟩ := Prod.mk.injEq _ _ _ _ ▸ h
      refine ⟨hm, fun d hd => ?_⟩
      have e1 := hrep d hd
      dsimp only at e1
      simp only [stepTx, htt, e1]
    | ok ratio =>
      dsimp only at h
      obtain ⟨rfl, rfl⟩ := Prod.mk.injEq _ _ _ _ ▸ h
      refine ⟨hm, fun d hd => ?_⟩
      have e1 := hrep d hd
      dsimp only at e1
      simp only [stepTx, htt, e1]
  case merger_stock =>
    by_cases hq : tx.quantity < 0
    · rw [if_pos hq] at h
      obtain ⟨rfl, rfl⟩ := Prod.mk.injEq _ _ _ _ ▸ h
      refine ⟨Mono.rfl _, fun d _ => ?_⟩
      simp only [stepTx, htt]
      rw [if_pos hq]
    · rw [if_neg hq] at h
      obtain ⟨rfl, rfl⟩ := Prod.mk.injEq _ _ _ _ ▸ h
      refine ⟨Mono.rfl _, fun d _ => ?_⟩
      simp only [stepTx, htt]
      rw [if_neg hq]
  case merger =>
    by_cases hq : tx.quantity < 0
    · rw [if_pos hq] at h
      obtain ⟨rfl, rfl⟩ := Prod.mk.injEq _ _ _ _ ▸ h
      refine ⟨Mono.rfl _, fun d _ => ?_⟩
      simp only [stepTx, htt]
      rw [if_pos hq]
    · rw [if_neg hq] at h
      obtain ⟨rfl, rfl⟩ := Prod.mk.injEq _ _ _ _ ▸ h
      refine ⟨Mono.rfl _, fun d _ => ?_⟩
      simp only [stepTx, htt]
      rw [if_neg hq]
  case merger_cash =>
    by_cases ha : 0 < tx.amount_eur
    · rw [if_pos ha] at h
      obtain ⟨rfl, rfl⟩ := Prod.mk.injEq _ _ _ _ ▸ h
      refine ⟨Mono.rfl _, fun d _ => ?_⟩
      simp only [stepTx, htt]
      rw [if_pos ha]
    · rw [if_neg ha] at h
      obtain ⟨rfl, rfl⟩ := Prod.mk.injEq _ _ _ _ ▸ h
      refine ⟨Mono.rfl _, fun d _ => ?_⟩
      simp only [stepTx, htt]
      rw [if_neg ha]
  case transfer_merger =>
    by_cases hq : 0 < tx.quantity
    · rw [if_pos hq] at h
      obtain ⟨rfl, rfl⟩ := Prod.mk.injEq _ _ _ _ ▸ h
      refine ⟨Mono.rfl _, fun d _ => ?_⟩
      simp only [stepTx, htt]
      rw [if_pos hq]
    · rw [if_neg hq] at h
      obtain ⟨rfl, rfl⟩ := Prod.mk.injEq _ _ _ _ ▸ h
      refine ⟨Mono.rfl _, fun d _ => ?_⟩
      simp only [stepTx, htt]
      rw [if_neg hq]
  case transfer_broker =>
    obtain ⟨rfl, rfl⟩ := Prod.mk.injEq _ _ _ _ ▸ h
    refine ⟨Mono.rfl _, fun d _ => ?_⟩
    simp only [stepTx, htt]
  case ignore =>
    obtain ⟨rfl, rfl⟩ := Prod.mk.injEq _ _ _ _ ▸ h
    refine ⟨Mono.rfl _, fun d _ => ?_⟩
    simp only [stepTx, htt]

theorem deemed_stable (tkr : String) (buys : List PRow) :
    Stable (fun c => calculate_deemed_disposal_liability yf nowDate c tkr buys) := by
  intro c r c' h
  dsimp only at h
  simp only [calculate_deemed_disposal_liability] at h
  rcases heq : is_etf yf c (some tkr) with ⟨o, c1⟩
  rw [heq] at h
  obtain ⟨hm, hrep⟩ := is_etf_stable yf (some tkr) c o c1 heq
  cases o with
  | error e =>
    dsimp only at h
    obtain ⟨rfl, rfl⟩ := Prod.mk.injEq _ _ _ _ ▸ h
    refine ⟨hm, fun d hd => ?_⟩
    have e1 := hrep d hd
    dsimp only at e1
    simp only [calculate_deemed_disposal_liability, e1]
  | ok b =>
    dsimp only at h
    by_cases hb : (!b) = true
    · rw [if_pos hb] at h
      obtain ⟨rfl, rfl⟩ := Prod.mk.injEq _ _ _ _ ▸ h
      refine ⟨hm, fun d hd => ?_⟩
      have e1 := hrep d hd
      dsimp only at e1
      simp only [calculate_deemed_disposal_liability, e1]
      rw [if_pos hb]
    · rw [if_neg hb] at h
      obtain ⟨rfl, rfl⟩ := Prod.mk.injEq _ _ _ _ ▸ h
      refine ⟨hm, fun d hd => ?_⟩
      have e1 := hrep d hd
      dsimp only at e1
      simp only [calculate_deemed_disposal_liability, e1]
      rw [if_neg hb]

theorem finishTicker_stable (res : Results) (t asset_type : String)
    (ticker_data : List PRow) (acc1 : TickerAcc) (deemed : ℚ × ℚ) :
    Stable (fun c => finishTicker yf nowYear c res t asset_type ticker_data acc1 deemed) := by
  intro c r c' h
  dsimp only at h
  simp only [finishTicker] at h
  rcases heq : get_ticker_info yf c (some t) with ⟨o, c1⟩
  rw [heq] at h
  obtain ⟨hm, hrep⟩ := get_ticker_info_stable yf (some t) c o c1 heq
  cases o with
  | none =>
    dsimp only at h
    obtain ⟨rfl, rfl⟩ := Prod.mk.injEq _ _ _ _ ▸ h
    refine ⟨hm, fun d hd => ?_⟩
    have e1 := hrep d hd
    dsimp only at e1
    simp only [finishTicker, e1]
  | some info =>
    dsimp only at h
    obtain ⟨rfl, rfl⟩ := Prod.mk.injEq _ _ _ _ ▸ h
    refine ⟨hm, fun d hd => ?_⟩
    have e1 := hrep d hd
    dsimp only at e1
    simp only [finishTicker, e1]

theorem processOneTicker_stable (relevant : List PRow) (res : Results) (t : String) :
    Stable (fun c => processOneTicker yf nowDate nowYear relevant c res t) := by
  intro c r c' h
  dsimp only at h
  simp only [processOneTicker] at h
  rcases he : is_etf yf c (some t) with ⟨oe, c1⟩
  rw [he] at h
  obtain ⟨hm1, hrep1⟩ := is_etf_stable yf (some t) c oe c1 he
  cases oe with
  | error e =>
    dsimp only at h
    obtain ⟨rfl, rfl⟩ := Prod.mk.injEq _ _ _ _ ▸ h
    refine ⟨hm1, fun d hd => ?_⟩
    have e1 := hrep1 d hd
    dsimp only at e1
    simp only [processOneTicker, e1]
  | ok etf =>
    dsimp only at h
    rcases hf : efold (stepTx yf etf t) c1 emptyAcc
        (sortByDate (relevant.filter (fun r => r.normalized = some t))) with ⟨of, c2⟩
    rw [hf] at h
    obtain ⟨hm2, hrep2⟩ := efold_stable (stepTx yf etf t)
      (fun s a => stepTx_stable yf etf t s a)
      (sortByDate (relevant.filter (fun r => r.normalized = some t))) emptyAcc
      c1 of c2 hf
    cases of with
    | error e =>
      dsimp only at h
      obtain ⟨rfl, rfl⟩ := Prod.mk.injEq _ _ _ _ ▸ h
      refine ⟨Mono.trans hm1 hm2, fun d hd => ?_⟩
      have e1 := hrep1 d (Mono.trans hm2 hd)
      have e2 := hrep2 d hd
      dsimp only at e1 e2
      simp only [processOneTicker, e1, e2]
    | ok acc0 =>
      dsimp only at h
      rcases ha : is_active yf c2 (some t) with ⟨oa, c3⟩
      rw [ha] at h
      obtain ⟨hm3, hrep3⟩ := is_active_stable yf (some t) c2 oa c3 ha
      cases oa with
      | error e =>
        dsimp only at h
        obtain ⟨rfl, rfl⟩ := Prod.mk.injEq _ _ _ _ ▸ h
        refine ⟨Mono.trans hm1 (Mono.trans hm2 hm3), fun d hd => ?_⟩
        have e1 := hrep1 d (Mono.trans hm2 (Mono.trans hm3 hd))
        have e2 := hrep2 d (Mono.trans hm3 hd)
        have e3 := hrep3 d hd
        dsimp only at e1 e2 e3
        simp only [processOneTicker, e1, e2, e3]
      | ok act =>
        dsimp only at h
        by_cases hcond :
            (etf && !(inactiveAdjust nowYear act acc0).buy_transactions.isEmpty) = true
        · rw [if_pos hcond] at h
          rcases hdm : calculate_deemed_disposal_liability yf nowDate c3 t
              (inactiveAdjust nowYear act acc0).buy_transactions with ⟨od, c4⟩
          rw [hdm] at h
          obtain ⟨hm4, hrep4⟩ := deemed_stable yf nowDate t
            (inactiveAdjust nowYear act acc0).buy_transactions c3 od c4 hdm
          cases od with
          | error e =>
            dsimp only at h
            obtain ⟨rfl, rfl⟩ := Prod.mk.injEq _ _ _ _ ▸ h
            refine ⟨Mono.trans hm1 (Mono.trans hm2 (Mono.trans hm3 hm4)), fun d hd => ?_⟩
            have e1 := hrep1 d (Mono.trans hm2 (Mono.trans hm3 (Mono.trans hm4 hd)))
            have e2 := hrep2 d (Mono.trans hm3 (Mono.trans hm4 hd))
            have e3 := hrep3 d (Mono.trans hm4 hd)
            have e4 := hrep4 d hd
            dsimp only at e1 e2 e3 e4
            simp only [processOneTicker, e1, e2, e3]
            rw [if_pos hcond, e4]
          | ok deemed =>
            dsimp only at h
            obtain ⟨hm5, hrep5⟩ := finishTicker_stable yf nowYear res t
              (if etf then "etfs" else "stocks")
              (sortByDate (relevant.filter (fun r => r.normalized = some t)))
              (inactiveAdjust nowYear act acc0) deemed c4 r c' h
            refine ⟨Mono.trans hm1 (Mono.trans hm2 (Mono.trans hm3 (Mono.trans hm4 hm5))),
              fun d hd => ?_⟩
            have e1 := hrep1 d (Mono.trans hm2 (Mono.trans hm3 (Mono.trans hm4
              (Mono.trans hm5 hd))))
            have e2 := hrep2 d (Mono.trans hm3 (Mono.trans hm4 (Mono.trans hm5 hd)))
            have e3 := hrep3 d (Mono.trans hm4 (Mono.trans hm5 hd))
            have e4 := hrep4 d (Mono.trans hm5 hd)
            have e5 := hrep5 d hd
            dsimp only at e1 e2 e3 e4 e5
            simp only [processOneTicker, e1, e2, e3]
            rw [if_pos hcond, e4]
            exact e5
        · rw [if_neg hcond] at h
          obtain ⟨hm4, hrep4⟩ := finishTicker_stable yf nowYear res t
            (if etf then "etfs" else "stocks")
            (sortByDate (relevant.filter (fun r => r.normalized = some t)))
            (inactiveAdjust nowYear act acc0) (0, 0) c3 r c' h
          refine ⟨Mono.trans hm1 (Mono.trans hm2 (Mono.trans hm3 hm4)), fun d hd => ?_⟩
          have e1 := hrep1 d (Mono.trans hm2 (Mono.trans hm3 (Mono.trans hm4 hd)))
          have e2 := hrep2 d (Mono.trans hm3 (Mono.trans hm4 hd))
          have e3 := hrep3 d (Mono.trans hm4 hd)
          have e4 := hrep4 d hd
          dsimp only at e1 e2 e3 e4
          simp only [processOneTicker, e1, e2, e3]
          rw [if_neg hcond]
          exact e4

theorem process_transactions_stable (df : List RawTx) :
    Stable (fun c => process_transactions yf yearOf nowDate nowYear c df) := by
  intro c r c' h
  dsimp only at h
  simp only [process_transactions] at h
  rcases h1 : mergerTickers yf c (df.map (initRow yearOf)) with ⟨mt, c1⟩
  rw [h1] at h
  obtain ⟨hm1, hrep1⟩ := mergerTickers_stable yf (df.map (initRow yearOf)) c mt c1 h1
  dsimp only at h
  rcases h2 : cmap (classify_transfer yf mt) c1 (df.map (initRow yearOf)) with ⟨rows2, c2⟩
  rw [h2] at h
  obtain ⟨hm2, hrep2⟩ := cmap_stable (classify_transfer yf mt)
    (fun row => classify_transfer_stable yf mt row) (df.map (initRow yearOf)) c1 rows2 c2 h2
  dsimp only at h
  rcases h3 : cmap (normalizeStage yf) c2 rows2 with ⟨rows3, c3⟩
  rw [h3] at h
  obtain ⟨hm3, hrep3⟩ := cmap_stable (normalizeStage yf)
    (fun row => normalizeStage_stable yf row) rows2 c2 rows3 c3 h3
  dsimp only at h
  rcases h4 : emap (isEtfStage yf) c3 rows3 with ⟨o4, c4⟩
  rw [h4] at h
  obtain ⟨hm4, hrep4⟩ := emap_stable (isEtfStage yf)
    (fun row => isEtfStage_stable yf row) rows3 c3 o4 c4 h4
  cases o4 with
  | error e =>
    dsimp only at h
    obtain ⟨rfl, rfl⟩ := Prod.mk.injEq _ _ _ _ ▸ h
    refine ⟨Mono.trans hm1 (Mono.trans hm2 (Mono.trans hm3 hm4)), fun d hd => ?_⟩
    have e1 := hrep1 d (Mono.trans hm2 (Mono.trans hm3 (Mono.trans hm4 hd)))
    have e2 := hrep2 d (Mono.trans hm3 (Mono.trans hm4 hd))
    have e3 := hrep3 d (Mono.trans hm4 hd)
    have e4 := hrep4 d hd
    dsimp only at e1 e2 e3 e4
    simp only [process_transactions, e1, e2, e3, e4]
  | ok rows4 =>
    dsimp only at h
    rcases h5 : emap (isActiveStage yf) c4 rows4 with ⟨o5, c5⟩
    rw [h5] at h
    obtain ⟨hm5, hrep5⟩ := emap_stable (isActiveStage yf)
      (fun row => isActiveStage_stable yf row) rows4 c4 o5 c5 h5
    cases o5 with
    | error e =>
      dsimp only at h
      obtain ⟨rfl, rfl⟩ := Prod.mk.injEq _ _ _ _ ▸ h
      refine ⟨Mono.trans hm1 (Mono.trans hm2 (Mono.trans hm3 (Mono.trans hm4 hm5))),
        fun d hd => ?_⟩
      have e1 := hrep1 d (Mono.trans hm2 (Mono.trans hm3 (Mono.trans hm4
        (Mono.trans hm5 hd))))
      have e2 := hrep2 d (Mono.trans hm3 (Mono.trans hm4 (Mono.trans hm5 hd)))
      have e3 := hrep3 d (Mono.trans hm4 (Mono.trans hm5 hd))
      have e4 := hrep4 d (Mono.trans hm5 hd)
      have e5 := hrep5 d hd
      dsimp only at e1 e2 e3 e4 e5
      simp only [process_transactions, e1, e2, e3, e4, e5]
    | ok rows5 =>
      dsimp only at h
      rcases h6 : emap convertAmountStage c5 (rows5.map parseStage) with ⟨o6, c6⟩
      rw [h6] at h
      obtain ⟨hm6, hrep6⟩ := emap_stable convertAmountStage
        (fun row => convertAmountStage_stable row) (rows5.map parseStage) c5 o6 c6 h6
      cases o6 with
      | error e =>
        dsimp only at h
        obtain ⟨rfl, rfl⟩ := Prod.mk.injEq _ _ _ _ ▸ h
        refine ⟨Mono.trans hm1 (Mono.trans hm2 (Mono.trans hm3 (Mono.trans hm4
          (Mono.trans hm5 hm6)))), fun d hd => ?_⟩
        have e1 := hrep1 d (Mono.trans hm2 (Mono.trans hm3 (Mono.trans hm4
          (Mono.trans hm5 (Mono.trans hm6 hd)))))
        have e2 := hrep2 d (Mono.trans hm3 (Mono.trans hm4 (Mono.trans hm5
          (Mono.trans hm6 hd))))
        have e3 := hrep3 d (Mono.trans hm4 (Mono.trans hm5 (Mono.trans hm6 hd)))
        have e4 := hrep4 d (Mono.trans hm5 (Mono.trans hm6 hd))
        have e5 := hrep5 d (Mono.trans hm6 hd)
        have e6 := hrep6 d hd
        dsimp only at e1 e2 e3 e4 e5 e6
        simp only [process_transactions, e1, e2, e3, e4, e5, e6]
      | ok rows7 =>
        dsimp only at h
        rcases h7 : emap convertPriceStage c6 rows7 with ⟨o7, c7⟩
        rw [h7] at h
        obtain ⟨hm7, hrep7⟩ := emap_stable convertPriceStage
          (fun row => convertPriceStage_stable row) rows7 c6 o7 c7 h7
        cases o7 with
        | error e =>
          dsimp only at h
          obtain ⟨rfl, rfl⟩ := Prod.mk.injEq _ _ _ _ ▸ h
          refine ⟨Mono.trans hm1 (Mono.trans hm2 (Mono.trans hm3 (Mono.trans hm4
            (Mono.trans hm5 (Mono.trans hm6 hm7))))), fun d hd => ?_⟩
          have e1 := hrep1 d (Mono.trans hm2 (Mono.trans hm3 (Mono.trans hm4
            (Mono.trans hm5 (Mono.trans hm6 (Mono.trans hm7 hd))))))
          have e2 := hrep2 d (Mono.trans hm3 (Mono.trans hm4 (Mono.trans hm5
            (Mono.trans hm6 (Mono.trans hm7 hd)))))
          have e3 := hrep3 d (Mono.trans hm4 (Mono.trans hm5 (Mono.trans hm6
            (Mono.trans hm7 hd))))
          have e4 := hrep4 d (Mono.trans hm5 (Mono.trans hm6 (Mono.trans hm7 hd)))
          have e5 := hrep5 d (Mono.trans hm6 (Mono.trans hm7 hd))
          have e6 := hrep6 d (Mono.trans hm7 hd)
          have e7 := hrep7 d hd
          dsimp only at e1 e2 e3 e4 e5 e6 e7
          simp only [process_transactions, e1, e2, e3, e4, e5, e6, e7]
        | ok rows8 =>
          dsimp only at h
          obtain ⟨hm8, hrep8⟩ := efold_stable
            (processOneTicker yf nowDate nowYear (relevantFilter (rows8.map feesStage)))
            (fun s a => processOneTicker_stable yf nowDate nowYear
              (relevantFilter (rows8.map feesStage)) s a)
            (uniqueFirst []
              ((relevantFilter (rows8.map feesStage)).filterMap (fun r => r.normalized)))
            emptyResults c7 r c' h
          refine ⟨Mono.trans hm1 (Mono.trans hm2 (Mono.trans hm3 (Mono.trans hm4
            (Mono.trans hm5 (Mono.trans hm6 (Mono.trans hm7 hm8)))))), fun d hd => ?_⟩
          have e1 := hrep1 d (Mono.trans hm2 (Mono.trans hm3 (Mono.trans hm4
            (Mono.trans hm5 (Mono.trans hm6 (Mono.trans hm7 (Mono.trans hm8 hd)))))))
          have e2 := hrep2 d (Mono.trans hm3 (Mono.trans hm4 (Mono.trans hm5
            (Mono.trans hm6 (Mono.trans hm7 (Mono.trans hm8 hd))))))
          have e3 := hrep3 d (Mono.trans hm4 (Mono.trans hm5 (Mono.trans hm6
            (Mono.trans hm7 (Mono.trans hm8 hd)))))
          have e4 := hrep4 d (Mono.trans hm5 (Mono.trans hm6 (Mono.trans hm7
            (Mono.trans hm8 hd))))
          have e5 := hrep5 d (Mono.trans hm6 (Mono.trans hm7 (Mono.trans hm8 hd)))
          have e6 := hrep6 d (Mono.trans hm7 (Mono.trans hm8 hd))
          have e7 := hrep7 d (Mono.trans hm8 hd)
          have e8 := hrep8 d hd
          dsimp only at e1 e2 e3 e4 e5 e6 e7 e8
          simp only [process_transactions, e1, e2, e3, e4, e5, e6, e7]
          exact e8

/-- C8: round-trip determinism of aggregation. Running `process_transactions`
a second time over the same transaction stream, starting from the resolver
cache produced by the first run, returns exactly the same result pair —
identical summary totals and per-ticker detail — and leaves the cache
unchanged: aggregation is idempotent and depends on no external mutable
state beyond the explicitly threaded cache, which only ever grows with
resolver defaults that do not affect re-runs. -/
theorem c8_process_transactions_roundtrip (c : Cache) (df : List RawTx) :
    process_transactions yf yearOf nowDate nowYear
        ((process_transactions yf yearOf nowDate nowYear c df).2) df =
      process_transactions yf yearOf nowDate nowYear c df := by
  rcases heq : process_transactions yf yearOf nowDate nowYear c df with ⟨r, c'⟩
  obtain ⟨hm, hrep⟩ := process_transactions_stable yf yearOf nowDate nowYear df c r c' heq
  have e := hrep c' (Mono.rfl c')
  dsimp only at e
  exact e
